import Mathlib

/-!
Verification development for the switch-rom-packer sources.

The repository contains three C programs built on libnx:
* `forwarder/source/main.c` — the Chainload Handoff: reads two text records
  from `romfs:` (a target NRO path and an argv line), trims them, and attempts
  a chainload; the chainload itself is a stub returning a fixed error code.
* the batch stub (`part_002`) — the Manifest Copy Engine: reads
  `romfs:/filelist.txt`, parses each line as `<platform>\t<filename>` with
  `sscanf("%159[^\t]\t%575[^\n]")`, and copies `romfs:/<filename>` to
  `/roms/<platform>/<filename>`, creating directories with an `mkdir -p`
  style helper that tolerates `EEXIST`.
* `stub/source/main.c` — the single-ROM stub whose `copyFile` ignores the
  result of `fwrite`.

The C code is shallowly embedded below.  File contents are `List Char`
(C bytes), paths are `List Char`, and the filesystem is an explicit record
of directories, files and a set of paths on which `mkdir` fails for a
reason other than `EEXIST` (read-only medium, permissions, ...).  Partial
`fwrite` behaviour is captured by a write oracle `wo : Nat → Nat` giving,
for the n-th 8 KiB chunk of a file copy, how many bytes the device actually
accepts.  Result codes follow libnx: `MAKERESULT(module, description)`
packs a 9-bit module and 13-bit description, and `R_FAILED rc ↔ rc ≠ 0`.
-/

/-- libnx `MAKERESULT(module, description)`: 9-bit module, 13-bit description. -/
def MAKERESULT (module desc : Nat) : Nat :=
  module % 512 + 512 * (desc % 8192)

/-- libnx `Module_Libnx` (result.h). -/
def Module_Libnx : Nat := 345

/-- libnx `LibnxError_NotFound` (result.h). -/
def LibnxError_NotFound : Nat := 9

/-- libnx `LibnxError_IoError` (result.h). -/
def LibnxError_IoError : Nat := 10

/-- libnx `R_FAILED`: a result code is a failure iff it is non-zero. -/
def R_FAILED (rc : Nat) : Prop := rc ≠ 0

instance (rc : Nat) : Decidable (R_FAILED rc) := by
  unfold R_FAILED; infer_instance

/-! ### Association-list file store -/

/-- Look a path up in an association list of files (first match wins;
keys are unique in every state the programs build). -/
def lookF : List (List Char × List Char) → List Char → Option (List Char)
  | [], _ => none
  | (k, v) :: rest, p => if k = p then some v else lookF rest p

/-- Write a file: replace the stored contents in place if the path is
present (as `fopen(path, "wb")` does), otherwise append a new entry. -/
def setF : List (List Char × List Char) → List Char → List Char →
    List (List Char × List Char)
  | [], k, v => [(k, v)]
  | (k', v') :: rest, k, v =>
    if k' = k then (k, v) :: rest else (k', v') :: setF rest k v

/-- The filesystem visible to the programs: `romfs:` sources and the SD card
share one namespace (their paths never collide: `romfs:/...` vs `/...`).
`denied` is the set of paths where `mkdir` fails with an error other than
`EEXIST`. -/
structure FS where
  dirs : List (List Char)
  files : List (List Char × List Char)
  denied : List (List Char)
deriving DecidableEq

/-- Paths of the files present in a state. -/
def FS.keys (fs : FS) : List (List Char) := fs.files.map Prod.fst

/-- File lookup on a state. -/
def FS.look (fs : FS) (p : List Char) : Option (List Char) := lookF fs.files p

/-- Outcome of one `mkdir` call. -/
inductive MkRes
  | ok
  | eexist
  | eother
deriving DecidableEq

/-- POSIX `mkdir`: `EEXIST` when the path already exists (as a file or a
directory), a non-`EEXIST` error on a denied path, otherwise the directory
is created. -/
def mkdirM (fs : FS) (p : List Char) : FS × MkRes :=
  if p ∈ fs.keys then (fs, .eexist)
  else if p ∈ fs.dirs then (fs, .eexist)
  else if p ∈ fs.denied then (fs, .eother)
  else ({ fs with dirs := fs.dirs ++ [p] }, .ok)

/-- `mkdir` with the result discarded, as the `mkpath` loop body does. -/
def mkdirIgn (fs : FS) (p : List Char) : FS := (mkdirM fs p).1

/-- The scan of `mkpath`'s `for` loop: walk the path from its second
character; at every `'/'` call `mkdir` on the prefix before it, ignoring
the outcome. -/
def mkpathLoop (fs : FS) (pre rest : List Char) : FS :=
  match rest with
  | [] => fs
  | c :: rs =>
    if c = '/' then mkpathLoop (mkdirIgn fs pre) (pre ++ [c]) rs
    else mkpathLoop fs (pre ++ [c]) rs

/-- `mkpath` from the batch stub: `strnlen` caps the path at 1023 bytes, an
empty path is success, each intermediate component is `mkdir`ed with the
result ignored, and only the final `mkdir` is checked — `EEXIST` counts as
success.  Returns the updated state and `true` for `0`, `false` for `-1`. -/
def mkpath (fs : FS) (path : List Char) : FS × Bool :=
  match path.take 1023 with
  | [] => (fs, true)
  | c :: rs =>
    let fs1 := mkpathLoop fs [c] rs
    match mkdirM fs1 (c :: rs) with
    | (fs2, .ok) => (fs2, true)
    | (fs2, .eexist) => (fs2, true)
    | (fs2, .eother) => (fs2, false)

/-- `strrchr(path, '/')` expressed as a split: `some (dir, name)` where
`dir` is everything before the last slash and `name` everything after it. -/
def lastSlashSplit : List Char → Option (List Char × List Char)
  | [] => none
  | c :: rest =>
    match lastSlashSplit rest with
    | some (d, n) => some (c :: d, n)
    | none => if c = '/' then some ([], rest) else none

/-- `fopen(dst, "wb")` succeeds iff the directory holding `dst` exists
(the root `""` always exists); a slashless path needs no directory. -/
def openWrite (fs : FS) (dst : List Char) : Bool :=
  match lastSlashSplit dst with
  | some (d, _) => decide (d = [] ∨ d ∈ fs.dirs)
  | none => true

/-! ### Manifest Copy Engine (the batch stub, `part_002`) -/

namespace Packer

/-- Trailing-CR/LF test used by the line trim. -/
def isCRLF (c : Char) : Bool := c = '\n' || c = '\r'

/-- The stub's trim: `while (len && (line[len-1]=='\n' || line[len-1]=='\r')) line[--len]=0`. -/
def trimCRLF (cs : List Char) : List Char :=
  (cs.reverse.dropWhile isCRLF).reverse

/-- C `isspace` over the default locale, as the whitespace directive of
`sscanf` uses it. -/
def isCSpace (c : Char) : Bool :=
  c = ' ' || c = '\t' || c = '\n' || c = '\r' || c = '\x0b' || c = '\x0c'

/-- A `%N[...]` scanset conversion: consume up to `n` characters
satisfying `p`, returning the match and the unread remainder. -/
def takeUpTo (n : Nat) (p : Char → Bool) (cs : List Char) :
    List Char × List Char :=
  match n, cs with
  | 0, cs => ([], cs)
  | _, [] => ([], [])
  | Nat.succ m, c :: rs =>
    if p c then
      let r := takeUpTo m p rs
      (c :: r.1, r.2)
    else ([], c :: rs)

/-- `sscanf(line, "%159[^\t]\t%575[^\n]", platform, filename) == 2`.
`%159[^\t]` consumes up to 159 non-tab characters and fails on zero
matches; the literal `'\t'` directive consumes any run of whitespace,
including none (C11 7.21.6.2p5); `%575[^\n]` consumes up to 575 non-newline
characters and fails on zero matches. -/
def parseManifestLine (cs : List Char) : Option (List Char × List Char) :=
  let r1 := takeUpTo 159 (fun c => c ≠ '\t') cs
  if r1.1 = [] then none
  else
    let rest := r1.2.dropWhile isCSpace
    let r2 := takeUpTo 575 (fun c => c ≠ '\n') rest
    if r2.1 = [] then none else some (r1.1, r2.1)

/-- Fuel-driven worker for `chunkList`: every step consumes one unit of
fuel and at least one character, so fuel equal to the byte count always
suffices (`chunkList_eq` below proves the natural unfolding). -/
def chunkListF : Nat → List Char → List (List Char)
  | 0, _ => []
  | Nat.succ f, cs =>
    if cs = [] then [] else cs.take 8192 :: chunkListF f (cs.drop 8192)

/-- Split a file's bytes into the successive 8 KiB chunks `fread` returns. -/
def chunkList (cs : List Char) : List (List Char) := chunkListF cs.length cs

/-- The copy loop of the batch stub's `copyFile`: for the `k`-th chunk the
device accepts `min (wo k) n` of the `n` bytes handed to `fwrite`; a short
write stops the loop at once.  Returns the bytes that reached the
destination and whether every chunk was written in full. -/
def copyChunks (wo : Nat → Nat) : Nat → List (List Char) → List Char × Bool
  | _, [] => ([], true)
  | k, c :: rest =>
    let w := min (wo k) c.length
    if w = c.length then
      let r := copyChunks wo (k + 1) rest
      (c ++ r.1, r.2)
    else (c.take w, false)

/-- `copyFile` of the batch stub: open the source (`NotFound` if missing);
derive the destination directory with `strrchr` and call `mkpath`,
discarding its result; open the destination (`IoError` if that fails);
stream 8 KiB chunks, aborting with `IoError` on a short write while the
partially written destination file remains. -/
def copyFile (wo : Nat → Nat) (fs : FS) (srcPath dstPath : List Char) :
    FS × Nat :=
  match lookF fs.files srcPath with
  | none => (fs, MAKERESULT Module_Libnx LibnxError_NotFound)
  | some content =>
    let fs1 := match lastSlashSplit dstPath with
               | some dn => (mkpath fs dn.1).1
               | none => fs
    if openWrite fs1 dstPath then
      let r := copyChunks wo 0 (chunkList content)
      ({ fs1 with files := setF fs1.files dstPath r.1 },
       if r.2 then 0 else MAKERESULT Module_Libnx LibnxError_IoError)
    else (fs1, MAKERESULT Module_Libnx LibnxError_IoError)

/-- Console output of the batch stub's main loop, one constructor per
`printf`. -/
inductive CopyEvent
  | missingManifest
  | badLine (line : List Char)
  | copying (src dst : List Char)
  | copyFailed (rc : Nat)
  | done
deriving DecidableEq

/-- `snprintf(srcPath, ..., "romfs:/%s", filename)` (no truncation:
7 + 575 < 700). -/
def srcPathOf (fn : List Char) : List Char := "romfs:/".toList ++ fn

/-- `snprintf(dstPath, ..., "/roms/%s/%s", platform, filename)`
(no truncation: 6 + 159 + 1 + 575 < 1100). -/
def dstPathOf (plat fn : List Char) : List Char :=
  "/roms/".toList ++ plat ++ "/".toList ++ fn

/-- One iteration of the manifest loop: trim CR/LF, skip an empty line,
log and skip a line `sscanf` rejects, otherwise build the two paths and
attempt the copy, logging the outcome.  Returns the new state and the
console output of this iteration. -/
def lineStep (wo : Nat → Nat) (fs : FS) (raw : List Char) :
    FS × List CopyEvent :=
  let line := trimCRLF raw
  if line = [] then (fs, [])
  else
    match parseManifestLine line with
    | none => (fs, [.badLine line])
    | some pf =>
      let src := srcPathOf pf.2
      let dst := dstPathOf pf.1 pf.2
      let r := copyFile wo fs src dst
      (r.1, [.copying src dst] ++
        (if r.2 = 0 then [.done] else [.copyFailed r.2]))

/-- The manifest loop over a list of raw lines. -/
def processLines (wo : Nat → Nat) (fs : FS) :
    List (List Char) → FS × List CopyEvent
  | [] => (fs, [])
  | l :: rest =>
    let r1 := lineStep wo fs l
    let r2 := processLines wo r1.1 rest
    (r2.1, r1.2 ++ r2.2)

/-- `fgets(line, 768, f)`: read at most `n` characters, stopping right
after a newline (which is kept). -/
def fgetsTake : Nat → List Char → List Char
  | 0, _ => []
  | _, [] => []
  | Nat.succ m, c :: rs => if c = '\n' then [c] else c :: fgetsTake m rs

/-- Fuel-driven worker for `fgetsSplit`: every `fgets` call consumes one
unit of fuel and at least one character, so fuel equal to the byte count
always suffices (`fgetsSplit_eq` below proves the natural unfolding). -/
def fgetsSplitF : Nat → List Char → List (List Char)
  | 0, _ => []
  | Nat.succ f, cs =>
    match cs with
    | [] => []
    | c :: rs =>
      if c = '\n' then ['\n'] :: fgetsSplitF f rs
      else
        let l := fgetsTake 766 rs
        (c :: l) :: fgetsSplitF f (rs.drop l.length)

/-- Split a manifest file into the successive lines `fgets` yields with a
768-byte buffer (767 characters of payload per call). -/
def fgetsSplit (cs : List Char) : List (List Char) := fgetsSplitF cs.length cs

/-- `romfs:/filelist.txt`, the manifest location. -/
def manifestPath : List Char := "romfs:/filelist.txt".toList

/-- The engine body of the batch stub's `main` once `romfs` is mounted:
a missing manifest prints one message and touches nothing; otherwise every
`fgets` line runs through `lineStep`. -/
def engineRun (wo : Nat → Nat) (fs : FS) : FS × List CopyEvent :=
  match lookF fs.files manifestPath with
  | none => (fs, [.missingManifest])
  | some content => processLines wo fs (fgetsSplit content)

end Packer

/-! ### Chainload Handoff (`forwarder/source/main.c`) -/

namespace Forwarder

/-- The trailing characters `read_text_file` strips:
`'\n' || '\r' || ' ' || '\t'`. -/
def isTrimWs (c : Char) : Bool :=
  c = '\n' || c = '\r' || c = ' ' || c = '\t'

/-- Remove the trailing run of whitespace/newlines, as the
`while (n && ...) n--` loop does. -/
def rstripWs (cs : List Char) : List Char :=
  (cs.reverse.dropWhile isTrimWs).reverse

/-- `read_text_file(path, out, outsz)`: an unopenable file yields the empty
string; otherwise `fread` delivers at most `outsz - 1` bytes and the
trailing whitespace run is removed. -/
def read_text_file (fs : FS) (path : List Char) (outsz : Nat) : List Char :=
  match lookF fs.files path with
  | none => []
  | some content => rstripWs (content.take (outsz - 1))

/-- `romfs:/nextNroPath`. -/
def NRO_FILE : List Char := "romfs:/nextNroPath".toList

/-- `romfs:/nextArgv`. -/
def ARG_FILE : List Char := "romfs:/nextArgv".toList

/-- `chainload_nro` as implemented: a placeholder that ignores both
arguments and returns the custom stub error `MAKERESULT(346, 1)`. -/
def chainload_nro (nroPath argvLine : List Char) : Nat :=
  MAKERESULT 346 1

/-- One line of the forwarder's persistent log
(`sdmc:/switch-rom-packer/forwarder.log`), one constructor per
`log_msg`/`log_printf` call site in `main`. -/
inductive FwdEvent
  | start
  | showNroPath (p : List Char)
  | showArgv (a : List Char)
  | errTargetMissing
  | chainloadNotImplemented (rc : Nat)
deriving DecidableEq

/-- The `"(missing)"` placeholder `main` logs for an empty record. -/
def missingMark : List Char := "(missing)".toList

/-- Observable outcome of the forwarder's `main`: the log lines it
appended, whether `chainload_nro` was invoked and its result, and whether
the process fell through to the button-poll idle loop (it always does —
the forwarder never exits silently). -/
structure FwdOut where
  log : List FwdEvent
  chainAttempted : Bool
  rc : Option Nat
  reachedIdle : Bool
deriving DecidableEq

/-- `main` of the forwarder after service init: read and trim both records
(512- and 768-byte buffers), log them, and either report the missing
target without any transfer attempt, or call `chainload_nro` and log its
failure; either way execution reaches the idle loop. -/
def forwarderMain (fs : FS) : FwdOut :=
  let nroPath := read_text_file fs NRO_FILE 512
  let argvLine := read_text_file fs ARG_FILE 768
  let baseLog := [FwdEvent.start,
    .showNroPath (if nroPath = [] then missingMark else nroPath),
    .showArgv (if argvLine = [] then missingMark else argvLine)]
  if nroPath = [] then
    { log := baseLog ++ [.errTargetMissing],
      chainAttempted := false, rc := none, reachedIdle := true }
  else
    let rc := chainload_nro nroPath argvLine
    { log := baseLog ++
        (if rc ≠ 0 then [.chainloadNotImplemented rc] else []),
      chainAttempted := true, rc := some rc, reachedIdle := true }

/-- Modelled from the spec: the spec's error taxonomy names a
`HandoffTargetNotFound` kind for a handoff whose target executable does
not exist.  The transfer mechanics are unimplemented in the observed
source (`chainload_nro` is a stub), so the repository's own encoding of a
not-found condition is used: `MAKERESULT(Module_Libnx,
LibnxError_NotFound)`, the result `copyFile` returns for a missing
source file. -/
def HandoffTargetNotFoundResult : Nat :=
  MAKERESULT Module_Libnx LibnxError_NotFound

end Forwarder

/-! ### Single-ROM stub (`stub/source/main.c`) -/

namespace Stub

/-- The stub `copyFile` copy loop: the result of `fwrite` is discarded, so
the loop always continues to the next chunk; the destination receives
whatever each `fwrite` stored. -/
def stubCopyChunks (wo : Nat → Nat) : Nat → List (List Char) → List Char
  | _, [] => []
  | k, c :: rest =>
    c.take (min (wo k) c.length) ++ stubCopyChunks wo (k + 1) rest

/-- `copyFile` of the single-ROM stub: `NotFound` if the source does not
open, `IoError` if the destination does not open (no directory creation
here), and otherwise `0` — unconditionally, since the `fwrite` result is
never checked. -/
def copyFile (wo : Nat → Nat) (fs : FS) (srcPath dstPath : List Char) :
    FS × Nat :=
  match lookF fs.files srcPath with
  | none => (fs, MAKERESULT Module_Libnx LibnxError_NotFound)
  | some content =>
    if openWrite fs dstPath then
      let written := stubCopyChunks wo 0 (Packer.chunkList content)
      ({ fs with files := setF fs.files dstPath written }, 0)
    else (fs, MAKERESULT Module_Libnx LibnxError_IoError)

end Stub

/-! ### Observer definitions used by the statements and proofs -/

namespace Packer

/-- The prefixes on which `mkpath`'s `for` loop calls `mkdir`: one per
interior `'/'` (excluding a leading one). -/
def attemptsLoop (pre rest : List Char) : List (List Char) :=
  match rest with
  | [] => []
  | c :: rs =>
    if c = '/' then pre :: attemptsLoop (pre ++ [c]) rs
    else attemptsLoop (pre ++ [c]) rs

/-- Every path `mkpath path` calls `mkdir` on: the interior prefixes, then
the (length-capped) path itself. -/
def mkAttempts (path : List Char) : List (List Char) :=
  match path.take 1023 with
  | [] => []
  | c :: rs => attemptsLoop [c] rs ++ [c :: rs]

/-- The `(destination, bytes)` write a manifest line performs, if its copy
reaches the destination file: the source opened, the directory walk done,
and the destination opened. -/
def stepWrite (wo : Nat → Nat) (fs : FS) (raw : List Char) :
    Option (List Char × List Char) :=
  let line := trimCRLF raw
  if line = [] then none
  else
    match parseManifestLine line with
    | none => none
    | some pf =>
      match lookF fs.files (srcPathOf pf.2) with
      | none => none
      | some content =>
        let dst := dstPathOf pf.1 pf.2
        let fs1 := match lastSlashSplit dst with
                   | some dn => (mkpath fs dn.1).1
                   | none => fs
        if openWrite fs1 dst then
          some (dst, (copyChunks wo 0 (chunkList content)).1)
        else none

/-- The sequence of file writes a whole run performs. -/
def writeTrace (wo : Nat → Nat) (fs : FS) :
    List (List Char) → List (List Char × List Char)
  | [] => []
  | l :: rest =>
    (stepWrite wo fs l).toList ++ writeTrace wo (lineStep wo fs l).1 rest

/-- An entry line's outcome marker on the console: `Bad manifest line` or
`Copying` (each non-empty line produces exactly one of the two). -/
def isOutcome : CopyEvent → Bool
  | .badLine _ => true
  | .copying _ _ => true
  | _ => false

/-- How many outcome markers a console transcript holds. -/
def countOutcomes (evs : List CopyEvent) : Nat :=
  (evs.filter isOutcome).length

/-- How many lines of a manifest are non-empty once trimmed. -/
def countNonempty (lines : List (List Char)) : Nat :=
  (lines.filter (fun l => !(trimCRLF l).isEmpty)).length

/-- Modelled from the spec: the two-field shape of a manifest line —
`category` and `filename` separated by a single tab character, category
non-empty and at most 159 bytes, filename non-empty and at most 575 bytes
(so the filename holds no tab either: the separating tab is the only
one). -/
def specTwoFieldParse (line : List Char) : Option (List Char × List Char) :=
  let cat := line.takeWhile (fun c => c ≠ '\t')
  match line.dropWhile (fun c => c ≠ '\t') with
  | '\t' :: fn =>
    if cat ≠ [] ∧ cat.length ≤ 159 ∧ fn ≠ [] ∧ fn.length ≤ 575 ∧
        '\t' ∉ fn then some (cat, fn)
    else none
  | _ => none

end Packer

/-- Preorder connecting a state to any state reachable from it by engine
steps: the denied set is untouched, directories and file paths only
accumulate, a denied or file-occupied path that is not a directory never
becomes one, and files outside the SD card (paths not starting with `'/'`)
keep their contents. -/
def StepRel (a b : FS) : Prop :=
  a.denied = b.denied ∧
  (∀ p, p ∈ a.dirs → p ∈ b.dirs) ∧
  (∀ p, p ∈ a.keys → p ∈ b.keys) ∧
  (∀ p, p ∈ a.denied → p ∉ a.dirs → p ∉ b.dirs) ∧
  (∀ p, p ∈ a.keys → p ∉ a.dirs → p ∉ b.dirs) ∧
  (∀ k, k.head? ≠ some '/' → lookF b.files k = lookF a.files k)

/-- First-or-second choice on optional file contents. -/
def oor (a b : Option (List Char)) : Option (List Char) :=
  match a with
  | some v => some v
  | none => b

/-- The value the last write to `k` in a write sequence stores, if any. -/
def lastW : List (List Char × List Char) → List Char → Option (List Char)
  | [], _ => none
  | d :: rest, k =>
    oor (lastW rest k) (if d.1 = k then some d.2 else none)

/-! ### Helper lemmas: the file store -/

theorem lookF_setF (l : List (List Char × List Char)) (k v p : List Char) :
    lookF (setF l k v) p = if k = p then some v else lookF l p := by
  induction l with
  | nil => by_cases h : k = p <;> simp [setF, lookF, h]
  | cons kv rest ih =>
    obtain ⟨k', v'⟩ := kv
    by_cases h : k' = k
    · subst h
      by_cases h2 : k' = p <;> simp [setF, lookF, h2]
    · by_cases h2 : k = p
      · subst h2
        simp [setF, lookF, h, ih]
      · simp only [setF, if_neg h, lookF]
        by_cases h3 : k' = p <;> simp [h3, ih, h2]

theorem mem_keys_setF (l : List (List Char × List Char)) (k v p : List Char)
    (h : p ∈ l.map Prod.fst) : p ∈ (setF l k v).map Prod.fst := by
  induction l with
  | nil => simp at h
  | cons kv rest ih =>
    obtain ⟨k', v'⟩ := kv
    by_cases hk : k' = k
    · subst hk
      simp only [List.map_cons, List.mem_cons] at h
      rcases h with h | h <;> simp [setF, h]
    · simp only [List.map_cons, List.mem_cons] at h
      rcases h with h | h
      · simp [setF, hk, h]
      · simp [setF, hk, ih h]

theorem lookF_mem_keys (l : List (List Char × List Char)) (p v : List Char)
    (h : lookF l p = some v) : p ∈ l.map Prod.fst := by
  induction l with
  | nil => simp [lookF] at h
  | cons kv rest ih =>
    obtain ⟨k', v'⟩ := kv
    by_cases hk : k' = p
    · simp [hk]
    · simp only [lookF, if_neg hk] at h
      simp [ih h]

/-! ### Helper lemmas: `strrchr` split -/

theorem lastSlashSplit_eq (cs : List Char) :
    ∀ dn, lastSlashSplit cs = some dn → cs = dn.1 ++ '/' :: dn.2 := by
  induction cs with
  | nil => intro dn h; simp [lastSlashSplit] at h
  | cons c rest ih =>
    intro dn h
    simp only [lastSlashSplit] at h
    rcases hr : lastSlashSplit rest with _ | ⟨d, n⟩ <;> rw [hr] at h
    · by_cases hc : c = '/'
      · subst hc
        simp at h
        subst h
        simp
      · simp [hc] at h
    · simp only [Option.some.injEq] at h
      subst h
      have hres := ih (d, n) hr
      simp only at hres
      simp [hres]

theorem lastSlashSplit_append (d n : List Char) (hn : '/' ∉ n) :
    lastSlashSplit (d ++ '/' :: n) = some (d, n) := by
  induction d with
  | nil =>
    have hrec : lastSlashSplit n = none := by
      induction n with
      | nil => simp [lastSlashSplit]
      | cons c resta ihn =>
        simp only [List.mem_cons, not_or] at hn
        simp only [lastSlashSplit, ihn hn.2]
        simp [Ne.symm hn.1]
    simp [lastSlashSplit, hrec]
  | cons c rest ih =>
    simp [lastSlashSplit, ih]

/-! ### Helper lemmas: scanset conversions -/

namespace Packer

theorem takeUpTo_length (n : Nat) (p : Char → Bool) (cs : List Char) :
    (takeUpTo n p cs).1.length ≤ n := by
  induction cs generalizing n with
  | nil => cases n <;> simp [takeUpTo]
  | cons c rs ih =>
    cases n with
    | zero => simp [takeUpTo]
    | succ m =>
      by_cases h : p c
      · simpa [takeUpTo, h] using ih m
      · simp [takeUpTo, h]

theorem takeUpTo_all (n : Nat) (p : Char → Bool) (cs : List Char) :
    ∀ c ∈ (takeUpTo n p cs).1, p c := by
  induction cs generalizing n with
  | nil => cases n <;> simp [takeUpTo]
  | cons c rs ih =>
    cases n with
    | zero => simp [takeUpTo]
    | succ m =>
      by_cases h : p c
      · intro x hx
        simp only [takeUpTo, if_pos h, List.mem_cons] at hx
        rcases hx with hx | hx
        · exact hx ▸ h
        · exact ih m x hx
      · simp [takeUpTo, h]

theorem takeUpTo_split (n : Nat) (p : Char → Bool) (cs : List Char) :
    (takeUpTo n p cs).1 ++ (takeUpTo n p cs).2 = cs := by
  induction cs generalizing n with
  | nil => cases n <;> simp [takeUpTo]
  | cons c rs ih =>
    cases n with
    | zero => simp [takeUpTo]
    | succ m =>
      by_cases h : p c
      · simpa [takeUpTo, h] using ih m
      · simp [takeUpTo, h]

theorem takeUpTo_stops (n : Nat) (p : Char → Bool) (a : List Char)
    (b0 : Char) (bs : List Char) (ha : ∀ c ∈ a, p c) (hlen : a.length ≤ n)
    (hb : ¬ p b0) : takeUpTo n p (a ++ b0 :: bs) = (a, b0 :: bs) := by
  induction a generalizing n with
  | nil =>
    cases n with
    | zero => simp [takeUpTo, hb]
    | succ m => simp [takeUpTo, hb]
  | cons c rest ih =>
    cases n with
    | zero => simp at hlen
    | succ m =>
      have hc : p c = true := ha c (by simp)
      have hrest : ∀ x ∈ rest, p x = true := fun x hx => ha x (by simp [hx])
      simp only [List.cons_append, takeUpTo, if_pos hc, List.append_eq,
        ih m hrest (by simpa using hlen)]

theorem takeUpTo_exhausts (n : Nat) (p : Char → Bool) (a : List Char)
    (ha : ∀ c ∈ a, p c) (hlen : a.length ≤ n) :
    takeUpTo n p a = (a, []) := by
  induction a generalizing n with
  | nil => cases n <;> simp [takeUpTo]
  | cons c rest ih =>
    cases n with
    | zero => simp at hlen
    | succ m =>
      have hc : p c = true := ha c (by simp)
      have hrest : ∀ x ∈ rest, p x = true := fun x hx => ha x (by simp [hx])
      simp [takeUpTo, hc, ih m hrest (by simpa using hlen)]

end Packer

/-! ### Helper lemmas: directory creation -/

theorem mkdirM_files (fs : FS) (p : List Char) :
    (mkdirM fs p).1.files = fs.files := by
  unfold mkdirM
  split_ifs <;> rfl

theorem mkdirM_denied (fs : FS) (p : List Char) :
    (mkdirM fs p).1.denied = fs.denied := by
  unfold mkdirM
  split_ifs <;> rfl

theorem mkdirM_keys (fs : FS) (p : List Char) :
    (mkdirM fs p).1.keys = fs.keys := by
  unfold FS.keys
  rw [mkdirM_files]

theorem mkdirM_dirs_mem (fs : FS) (p q : List Char) :
    q ∈ (mkdirM fs p).1.dirs ↔
      q ∈ fs.dirs ∨
        (q = p ∧ p ∉ fs.keys ∧ p ∉ fs.dirs ∧ p ∉ fs.denied) := by
  unfold mkdirM
  split_ifs with h1 h2 h3 <;> simp_all <;> tauto

theorem mkdirM_noop (fs : FS) (p : List Char)
    (h : p ∈ fs.keys ∨ p ∈ fs.dirs ∨ p ∈ fs.denied) :
    (mkdirM fs p).1 = fs := by
  unfold mkdirM
  split_ifs <;> first | rfl | tauto

theorem mkpathLoop_files (fs : FS) (pre rest : List Char) :
    (mkpathLoop fs pre rest).files = fs.files := by
  induction rest generalizing fs pre with
  | nil => rfl
  | cons c rs ih =>
    unfold mkpathLoop
    by_cases hc : c = '/'
    · simp only [if_pos hc, ih, mkdirIgn, mkdirM_files]
    · simp only [if_neg hc, ih]

theorem mkpathLoop_denied (fs : FS) (pre rest : List Char) :
    (mkpathLoop fs pre rest).denied = fs.denied := by
  induction rest generalizing fs pre with
  | nil => rfl
  | cons c rs ih =>
    unfold mkpathLoop
    by_cases hc : c = '/'
    · simp only [if_pos hc, ih, mkdirIgn, mkdirM_denied]
    · simp only [if_neg hc, ih]

theorem mkpathLoop_keys (fs : FS) (pre rest : List Char) :
    (mkpathLoop fs pre rest).keys = fs.keys := by
  unfold FS.keys
  rw [mkpathLoop_files]

theorem mkpathLoop_dirs_mem (fs : FS) (pre rest q : List Char) :
    q ∈ (mkpathLoop fs pre rest).dirs ↔
      q ∈ fs.dirs ∨
        (q ∈ Packer.attemptsLoop pre rest ∧ q ∉ fs.keys ∧
          q ∉ fs.denied) := by
  induction rest generalizing fs pre with
  | nil => simp [mkpathLoop, Packer.attemptsLoop]
  | cons c rs ih =>
    unfold mkpathLoop Packer.attemptsLoop
    by_cases hc : c = '/'
    · simp only [if_pos hc]
      rw [ih]
      unfold mkdirIgn
      rw [mkdirM_keys, mkdirM_denied, mkdirM_dirs_mem]
      constructor
      · rintro (((h | ⟨rfl, hk, hd, hdn⟩) | ⟨ha, hk, hdn⟩))
        · exact Or.inl h
        · exact Or.inr ⟨by simp, hk, hdn⟩
        · exact Or.inr ⟨by simp [ha], hk, hdn⟩
      · rintro (h | ⟨ha, hk, hdn⟩)
        · exact Or.inl (Or.inl h)
        · simp only [List.mem_cons] at ha
          rcases ha with rfl | ha
          · by_cases hd : q ∈ fs.dirs
            · exact Or.inl (Or.inl hd)
            · exact Or.inl (Or.inr ⟨rfl, hk, hd, hdn⟩)
          · exact Or.inr ⟨ha, hk, hdn⟩
    · simp only [if_neg hc]
      rw [ih]

theorem mkpath_files (fs : FS) (d : List Char) :
    (mkpath fs d).1.files = fs.files := by
  unfold mkpath
  rcases h : d.take 1023 with _ | ⟨c, rs⟩
  · rfl
  · simp only
    rcases hm : mkdirM (mkpathLoop fs [c] rs) (c :: rs) with ⟨fs2, r⟩
    have h2 : fs2.files = fs.files := by
      have := mkdirM_files (mkpathLoop fs [c] rs) (c :: rs)
      rw [hm] at this
      simp only at this
      rw [this, mkpathLoop_files]
    cases r <;> simpa using h2

theorem mkpath_denied (fs : FS) (d : List Char) :
    (mkpath fs d).1.denied = fs.denied := by
  unfold mkpath
  rcases h : d.take 1023 with _ | ⟨c, rs⟩
  · rfl
  · simp only
    rcases hm : mkdirM (mkpathLoop fs [c] rs) (c :: rs) with ⟨fs2, r⟩
    have h2 : fs2.denied = fs.denied := by
      have := mkdirM_denied (mkpathLoop fs [c] rs) (c :: rs)
      rw [hm] at this
      simp only at this
      rw [this, mkpathLoop_denied]
    cases r <;> simpa using h2

theorem mkpath_keys (fs : FS) (d : List Char) :
    (mkpath fs d).1.keys = fs.keys := by
  unfold FS.keys
  rw [mkpath_files]

theorem mkpath_dirs_mem (fs : FS) (d q : List Char) :
    q ∈ (mkpath fs d).1.dirs ↔
      q ∈ fs.dirs ∨
        (q ∈ Packer.mkAttempts d ∧ q ∉ fs.keys ∧ q ∉ fs.denied) := by
  unfold mkpath Packer.mkAttempts
  rcases h : d.take 1023 with _ | ⟨c, rs⟩
  · simp
  · simp only
    rcases hm : mkdirM (mkpathLoop fs [c] rs) (c :: rs) with ⟨fs2, r⟩
    have h2 : q ∈ fs2.dirs ↔
        q ∈ (mkpathLoop fs [c] rs).dirs ∨
          (q = c :: rs ∧ c :: rs ∉ fs.keys ∧
            c :: rs ∉ (mkpathLoop fs [c] rs).dirs ∧
            c :: rs ∉ fs.denied) := by
      have := mkdirM_dirs_mem (mkpathLoop fs [c] rs) (c :: rs) q
      rw [hm] at this
      simp only at this
      rw [this, mkpathLoop_keys, mkpathLoop_denied]
    have hgoal : q ∈ fs2.dirs ↔
        q ∈ fs.dirs ∨
          (q ∈ Packer.attemptsLoop [c] rs ++ [c :: rs] ∧ q ∉ fs.keys ∧
            q ∉ fs.denied) := by
      rw [h2, mkpathLoop_dirs_mem, mkpathLoop_dirs_mem]
      constructor
      · rintro ((hq | ⟨ha, hk, hdn⟩) | ⟨rfl, hk, hfull, hdn⟩)
        · exact Or.inl hq
        · exact Or.inr ⟨List.mem_append_left _ ha, hk, hdn⟩
        · exact Or.inr ⟨List.mem_append_right _ (by simp), hk, hdn⟩
      · rintro (hq | ⟨ha, hk, hdn⟩)
        · exact Or.inl (Or.inl hq)
        · rcases List.mem_append.mp ha with ha | ha
          · exact Or.inl (Or.inr ⟨ha, hk, hdn⟩)
          · simp only [List.mem_singleton] at ha
            subst ha
            by_cases hd : c :: rs ∈ fs.dirs
            · exact Or.inl (Or.inl hd)
            · by_cases hA : c :: rs ∈ Packer.attemptsLoop [c] rs
              · exact Or.inl (Or.inr ⟨hA, hk, hdn⟩)
              · refine Or.inr ⟨rfl, hk, ?_, hdn⟩
                rintro (h | ⟨h, h2⟩)
                · exact hd h
                · exact hA h
    cases r <;> simpa using hgoal

theorem mkpathLoop_noop (fs : FS) (rest : List Char) : ∀ pre,
    (∀ q ∈ Packer.attemptsLoop pre rest,
      q ∈ fs.keys ∨ q ∈ fs.dirs ∨ q ∈ fs.denied) →
    mkpathLoop fs pre rest = fs := by
  induction rest with
  | nil => intro pre _; rfl
  | cons c rs ih =>
    intro pre h
    unfold mkpathLoop
    by_cases hc : c = '/'
    · rw [if_pos hc]
      have hpre : pre ∈ Packer.attemptsLoop pre (c :: rs) := by
        unfold Packer.attemptsLoop
        rw [if_pos hc]
        simp
      rw [show mkdirIgn fs pre = fs from mkdirM_noop fs pre (h pre hpre)]
      refine ih (pre ++ [c]) fun q hq => h q ?_
      unfold Packer.attemptsLoop
      rw [if_pos hc]
      exact List.mem_cons_of_mem _ hq
    · rw [if_neg hc]
      refine ih (pre ++ [c]) fun q hq => h q ?_
      unfold Packer.attemptsLoop
      rw [if_neg hc]
      exact hq

theorem mkpath_noop (fs : FS) (d : List Char)
    (h : ∀ q ∈ Packer.mkAttempts d,
      q ∈ fs.keys ∨ q ∈ fs.dirs ∨ q ∈ fs.denied) :
    (mkpath fs d).1 = fs := by
  unfold mkpath
  unfold Packer.mkAttempts at h
  rcases ht : d.take 1023 with _ | ⟨c, rs⟩
  · rfl
  · rw [ht] at h
    simp only
    rw [mkpathLoop_noop fs rs [c]
      (fun q hq => h q (List.mem_append_left _ hq))]
    have hfin := h (c :: rs) (List.mem_append_right _ (by simp))
    rcases hm : mkdirM fs (c :: rs) with ⟨fs2, r⟩
    have h2 : fs2 = fs := by
      have := mkdirM_noop fs (c :: rs) hfin
      rw [hm] at this
      exact this
    cases r <;> simp [hm, h2]

theorem mkdirM_eother (fs : FS) (p : List Char)
    (h : (mkdirM fs p).2 = .eother) :
    p ∉ fs.keys ∧ p ∉ fs.dirs ∧ p ∈ fs.denied := by
  unfold mkdirM at h
  split_ifs at h with h1 h2 h3 <;> simp_all

theorem mkpath_flag_eexist (fs : FS) (p : List Char) (hp : p ∈ fs.dirs)
    (hlen : p.length ≤ 1023) : (mkpath fs p).2 = true := by
  unfold mkpath
  rcases ht : p.take 1023 with _ | ⟨c, rs⟩
  · rfl
  · rw [List.take_of_length_le hlen] at ht
    subst ht
    simp only
    have hdirs : c :: rs ∈ (mkpathLoop fs [c] rs).dirs := by
      rw [mkpathLoop_dirs_mem]
      exact Or.inl hp
    rcases hm : mkdirM (mkpathLoop fs [c] rs) (c :: rs) with ⟨fs2, r⟩
    cases r
    · simp [hm]
    · simp [hm]
    · exfalso
      have h2 : (mkdirM (mkpathLoop fs [c] rs) (c :: rs)).2 = .eother := by
        rw [hm]
      exact (mkdirM_eother _ _ h2).2.1 hdirs

theorem mem_mkAttempts_self (d : List Char) (hne : d ≠ [])
    (hlen : d.length ≤ 1023) : d ∈ Packer.mkAttempts d := by
  unfold Packer.mkAttempts
  rw [List.take_of_length_le hlen]
  rcases d with _ | ⟨c, rs⟩
  · exact absurd rfl hne
  · exact List.mem_append_right _ (by simp)

/-! ### Helper lemmas: fuel adequacy of the chunk and line splitters -/

theorem chunkListF_congr : ∀ (f f' : Nat) (cs : List Char),
    cs.length ≤ f → cs.length ≤ f' →
    Packer.chunkListF f cs = Packer.chunkListF f' cs := by
  intro f
  induction f with
  | zero =>
    intro f' cs h h'
    have hnil : cs = [] := List.length_eq_zero.mp (Nat.le_zero.mp h)
    subst hnil
    cases f' <;> simp [Packer.chunkListF]
  | succ n ih =>
    intro f' cs h h'
    by_cases hnil : cs = []
    · subst hnil
      cases f' <;> simp [Packer.chunkListF]
    · have hpos : 0 < cs.length := List.length_pos.mpr hnil
      cases f' with
      | zero => omega
      | succ m =>
        simp only [Packer.chunkListF, if_neg hnil]
        congr 1
        apply ih
        · simp only [List.length_drop]
          omega
        · simp only [List.length_drop]
          omega

theorem chunkList_eq (cs : List Char) :
    Packer.chunkList cs =
      if cs = [] then []
      else cs.take 8192 :: Packer.chunkList (cs.drop 8192) := by
  unfold Packer.chunkList
  by_cases hnil : cs = []
  · subst hnil
    simp [Packer.chunkListF]
  · rw [if_neg hnil]
    have hpos : 0 < cs.length := List.length_pos.mpr hnil
    rcases hl : cs.length with _ | n
    · omega
    · simp only [Packer.chunkListF, if_neg hnil]
      congr 1
      apply chunkListF_congr
      · simp only [List.length_drop]
        omega
      · exact le_refl _

theorem fgetsSplitF_congr : ∀ (f f' : Nat) (cs : List Char),
    cs.length ≤ f → cs.length ≤ f' →
    Packer.fgetsSplitF f cs = Packer.fgetsSplitF f' cs := by
  intro f
  induction f with
  | zero =>
    intro f' cs h h'
    have hnil : cs = [] := List.length_eq_zero.mp (Nat.le_zero.mp h)
    subst hnil
    cases f' <;> simp [Packer.fgetsSplitF]
  | succ n ih =>
    intro f' cs h h'
    rcases cs with _ | ⟨c, rs⟩
    · cases f' <;> simp [Packer.fgetsSplitF]
    · cases f' with
      | zero => simp at h'
      | succ m =>
        simp only [Packer.fgetsSplitF]
        simp only [List.length_cons] at h h'
        by_cases hc : c = '\n'
        · rw [if_pos hc, if_pos hc]
          congr 1
          apply ih <;> omega
        · rw [if_neg hc, if_neg hc]
          congr 1
          apply ih <;> simp only [List.length_drop] <;> omega

theorem fgetsSplit_eq (cs : List Char) :
    Packer.fgetsSplit cs =
      match cs with
      | [] => []
      | c :: rs =>
        if c = '\n' then ['\n'] :: Packer.fgetsSplit rs
        else (c :: Packer.fgetsTake 766 rs) ::
          Packer.fgetsSplit (rs.drop (Packer.fgetsTake 766 rs).length) := by
  unfold Packer.fgetsSplit
  rcases cs with _ | ⟨c, rs⟩
  · rfl
  · simp only [List.length_cons, Packer.fgetsSplitF]
    by_cases hc : c = '\n'
    · rw [if_pos hc, if_pos hc]
    · rw [if_neg hc, if_neg hc]
      congr 1
      apply fgetsSplitF_congr
      · simp only [List.length_drop]
        omega
      · exact le_refl _

/-! ### Helper lemmas: the chunked copy loop -/

theorem copyChunks_full (wo : Nat → Nat) (hwo : ∀ j, 8192 ≤ wo j) :
    ∀ (n : Nat) (v : List Char), v.length ≤ n → ∀ k,
      Packer.copyChunks wo k (Packer.chunkList v) = (v, true) := by
  intro n
  induction n with
  | zero =>
    intro v hv k
    have : v = [] := List.length_eq_zero.mp (Nat.le_zero.mp hv)
    subst this
    rw [chunkList_eq]
    simp [Packer.copyChunks]
  | succ m ih =>
    intro v hv k
    by_cases hnil : v = []
    · subst hnil
      rw [chunkList_eq]
      simp [Packer.copyChunks]
    · rw [chunkList_eq]
      simp only [if_neg hnil]
      have hclen : (v.take 8192).length ≤ 8192 := by
        simp [List.length_take]
      have hmin : min (wo k) (v.take 8192).length = (v.take 8192).length :=
        Nat.min_eq_right (le_trans hclen (hwo k))
      have hdrop : (v.drop 8192).length ≤ m := by
        have hpos : 0 < v.length := List.length_pos.mpr hnil
        simp only [List.length_drop]
        omega
      unfold Packer.copyChunks
      simp only [hmin, if_pos rfl, ih (v.drop 8192) hdrop (k + 1)]
      simp [List.take_append_drop]

/-! ### Helper lemmas: the step preorder -/

theorem steprel_refl (a : FS) : StepRel a a :=
  ⟨rfl, fun _ hp => hp, fun _ hp => hp, fun _ _ h => h, fun _ _ h => h,
    fun _ _ => rfl⟩

theorem steprel_trans {a b c : FS} (h1 : StepRel a b) (h2 : StepRel b c) :
    StepRel a c := by
  obtain ⟨d1, m1, k1, bd1, bk1, l1⟩ := h1
  obtain ⟨d2, m2, k2, bd2, bk2, l2⟩ := h2
  refine ⟨d1.trans d2, fun p hp => m2 p (m1 p hp),
    fun p hp => k2 p (k1 p hp), ?_, ?_, fun k hk => (l2 k hk).trans (l1 k hk)⟩
  · intro p hp hnd
    exact bd2 p (d1 ▸ hp) (bd1 p hp hnd)
  · intro p hp hnd
    exact bk2 p (k1 p hp) (bk1 p hp hnd)

theorem steprel_mkdirM (fs : FS) (p : List Char) :
    StepRel fs (mkdirM fs p).1 := by
  refine ⟨(mkdirM_denied fs p).symm, ?_, ?_, ?_, ?_, ?_⟩
  · intro q hq
    rw [mkdirM_dirs_mem]
    exact Or.inl hq
  · intro q hq
    rw [mkdirM_keys]
    exact hq
  · intro q hq hq2
    rw [mkdirM_dirs_mem]
    rintro (h | ⟨rfl, hk, hd, hdn⟩)
    · exact hq2 h
    · exact hdn hq
  · intro q hq hq2
    rw [mkdirM_dirs_mem]
    rintro (h | ⟨rfl, hk, hd, hdn⟩)
    · exact hq2 h
    · exact hk hq
  · intro k _
    rw [mkdirM_files]

theorem steprel_mkpathLoop (fs : FS) (rest : List Char) : ∀ pre,
    StepRel fs (mkpathLoop fs pre rest) := by
  induction rest generalizing fs with
  | nil => intro pre; exact steprel_refl fs
  | cons c rs ih =>
    intro pre
    unfold mkpathLoop
    by_cases hc : c = '/'
    · rw [if_pos hc]
      exact steprel_trans (steprel_mkdirM fs pre) (ih _ _)
    · rw [if_neg hc]
      exact ih fs (pre ++ [c])

theorem steprel_mkpath (fs : FS) (d : List Char) :
    StepRel fs (mkpath fs d).1 := by
  unfold mkpath
  rcases ht : d.take 1023 with _ | ⟨c, rs⟩
  · exact steprel_refl fs
  · simp only
    rcases hm : mkdirM (mkpathLoop fs [c] rs) (c :: rs) with ⟨fs2, r⟩
    have hrel : StepRel fs fs2 := by
      have h2 := steprel_mkdirM (mkpathLoop fs [c] rs) (c :: rs)
      rw [hm] at h2
      exact steprel_trans (steprel_mkpathLoop fs rs [c]) h2
    cases r <;> simpa using hrel

theorem steprel_setF (fs : FS) (dst v : List Char)
    (hdst : dst.head? = some '/') :
    StepRel fs { fs with files := setF fs.files dst v } := by
  refine ⟨rfl, fun p hp => hp, ?_, fun p _ h2 => h2, fun p _ h2 => h2, ?_⟩
  · intro p hp
    exact mem_keys_setF fs.files dst v p hp
  · intro k hk
    show lookF (setF fs.files dst v) k = lookF fs.files k
    rw [lookF_setF, if_neg]
    intro h
    subst h
    exact hk hdst

theorem steprel_copyFile (wo : Nat → Nat) (fs : FS)
    (srcPath dstPath : List Char) (hdst : dstPath.head? = some '/') :
    StepRel fs (Packer.copyFile wo fs srcPath dstPath).1 := by
  unfold Packer.copyFile
  rcases hs : lookF fs.files srcPath with _ | content
  · exact steprel_refl fs
  · simp only
    rcases hsp : lastSlashSplit dstPath with _ | ⟨d, nm⟩ <;> simp only
    · by_cases ho : openWrite fs dstPath
      · rw [if_pos ho]
        exact steprel_setF fs dstPath _ hdst
      · rw [if_neg ho]
        exact steprel_refl fs
    · by_cases ho : openWrite (mkpath fs d).1 dstPath
      · rw [if_pos ho]
        exact steprel_trans (steprel_mkpath fs d)
          (steprel_setF (mkpath fs d).1 dstPath _ hdst)
      · rw [if_neg ho]
        exact steprel_mkpath fs d

theorem dstPathOf_head (plat fn : List Char) :
    (Packer.dstPathOf plat fn).head? = some '/' := rfl

theorem srcPathOf_head (fn : List Char) :
    (Packer.srcPathOf fn).head? = some 'r' := rfl

theorem steprel_lineStep (wo : Nat → Nat) (fs : FS) (raw : List Char) :
    StepRel fs (Packer.lineStep wo fs raw).1 := by
  unfold Packer.lineStep
  by_cases h0 : Packer.trimCRLF raw = []
  · rw [if_pos h0]
    exact steprel_refl fs
  · rw [if_neg h0]
    rcases hp : Packer.parseManifestLine (Packer.trimCRLF raw) with _ | pf
    · exact steprel_refl fs
    · simp only
      exact steprel_copyFile wo fs _ _ (dstPathOf_head pf.1 pf.2)

theorem steprel_processLines (wo : Nat → Nat) (lines : List (List Char)) :
    ∀ fs, StepRel fs (Packer.processLines wo fs lines).1 := by
  induction lines with
  | nil => intro fs; exact steprel_refl fs
  | cons l rest ih =>
    intro fs
    unfold Packer.processLines
    exact steprel_trans (steprel_lineStep wo fs l)
      (ih (Packer.lineStep wo fs l).1)

/-! ### Helper lemmas: write traces -/

theorem oor_assoc (a b c : Option (List Char)) :
    oor (oor a b) c = oor a (oor b c) := by
  cases a <;> simp [oor]

theorem oor_self (a b : Option (List Char)) :
    oor a (oor a b) = oor a b := by
  cases a <;> simp [oor]

theorem lastW_append (xs ys : List (List Char × List Char)) (k : List Char) :
    lastW (xs ++ ys) k = oor (lastW ys k) (lastW xs k) := by
  induction xs with
  | nil => cases h : lastW ys k <;> simp [lastW, oor, h]
  | cons d rest ih =>
    show oor (lastW (rest ++ ys) k) (if d.1 = k then some d.2 else none) =
      oor (lastW ys k) (oor (lastW rest k) (if d.1 = k then some d.2 else none))
    rw [ih, oor_assoc]

theorem lineStep_look (wo : Nat → Nat) (fs : FS) (raw k : List Char) :
    lookF (Packer.lineStep wo fs raw).1.files k =
      oor (lastW (Packer.stepWrite wo fs raw).toList k) (lookF fs.files k) := by
  unfold Packer.lineStep Packer.stepWrite
  by_cases h0 : Packer.trimCRLF raw = []
  · simp [h0, oor, lastW]
  · rw [if_neg h0, if_neg h0]
    rcases hp : Packer.parseManifestLine (Packer.trimCRLF raw) with _ | pf
    · simp [oor, lastW]
    · simp only
      unfold Packer.copyFile
      rcases hs : lookF fs.files (Packer.srcPathOf pf.2) with _ | content
      · simp [oor, lastW]
      · simp only
        rcases hsp : lastSlashSplit (Packer.dstPathOf pf.1 pf.2) with _ | ⟨d, nm⟩
        · simp only
          by_cases ho : openWrite fs (Packer.dstPathOf pf.1 pf.2)
          · rw [if_pos ho, if_pos ho]
            show lookF (setF fs.files (Packer.dstPathOf pf.1 pf.2)
                (Packer.copyChunks wo 0 (Packer.chunkList content)).1) k = _
            rw [lookF_setF]
            by_cases hk : Packer.dstPathOf pf.1 pf.2 = k <;>
              simp [hk, lastW, oor]
          · rw [if_neg ho, if_neg ho]
            simp [oor, lastW]
        · simp only
          by_cases ho : openWrite (mkpath fs d).1 (Packer.dstPathOf pf.1 pf.2)
          · rw [if_pos ho, if_pos ho]
            show lookF (setF (mkpath fs d).1.files (Packer.dstPathOf pf.1 pf.2)
                (Packer.copyChunks wo 0 (Packer.chunkList content)).1) k = _
            rw [lookF_setF, mkpath_files]
            by_cases hk : Packer.dstPathOf pf.1 pf.2 = k <;>
              simp [hk, lastW, oor]
          · rw [if_neg ho, if_neg ho]
            have hf : (mkpath fs d).1.files = fs.files := mkpath_files fs d
            simp [hf, oor, lastW]

theorem processLines_look (wo : Nat → Nat) (lines : List (List Char)) :
    ∀ (fs : FS) (k : List Char),
      lookF (Packer.processLines wo fs lines).1.files k =
        oor (lastW (Packer.writeTrace wo fs lines) k) (lookF fs.files k) := by
  induction lines with
  | nil => intro fs k; simp [Packer.processLines, Packer.writeTrace, lastW, oor]
  | cons l rest ih =>
    intro fs k
    unfold Packer.processLines Packer.writeTrace
    simp only
    rw [ih (Packer.lineStep wo fs l).1 k, lineStep_look, lastW_append,
      oor_assoc]

/-! ### Helper lemmas: parsing bounds -/

theorem parse_bounds (cs : List Char) (pf : List Char × List Char)
    (h : Packer.parseManifestLine cs = some pf) :
    pf.1 ≠ [] ∧ pf.1.length ≤ 159 ∧ (∀ c ∈ pf.1, c ≠ '\t') ∧
      pf.2 ≠ [] ∧ pf.2.length ≤ 575 := by
  unfold Packer.parseManifestLine at h
  simp only at h
  by_cases h1 : (Packer.takeUpTo 159 (fun c => c ≠ '\t') cs).1 = []
  · rw [if_pos h1] at h
    exact Option.noConfusion h
  · rw [if_neg h1] at h
    by_cases h2 : (Packer.takeUpTo 575 (fun c => c ≠ '\n')
        (List.dropWhile Packer.isCSpace
          (Packer.takeUpTo 159 (fun c => c ≠ '\t') cs).2)).1 = []
    · rw [if_pos h2] at h
      exact Option.noConfusion h
    · rw [if_neg h2] at h
      simp only [Option.some.injEq] at h
      subst h
      refine ⟨h1, Packer.takeUpTo_length _ _ _, ?_, h2,
        Packer.takeUpTo_length _ _ _⟩
      intro c hc
      have hall := Packer.takeUpTo_all 159 (fun c => c ≠ '\t') cs c hc
      simpa using hall

theorem lastSlashSplit_isSome (cs : List Char) (h : '/' ∈ cs) :
    ∃ dn, lastSlashSplit cs = some dn := by
  induction cs with
  | nil => simp at h
  | cons c rest ih =>
    unfold lastSlashSplit
    rcases hr : lastSlashSplit rest with _ | ⟨d, n⟩
    · rcases List.mem_cons.mp h with h | h
      · exact ⟨([], rest), by simp [h.symm]⟩
      · obtain ⟨dn, hdn⟩ := ih h
        rw [hdn] at hr
        cases hr
    · exact ⟨(c :: d, n), rfl⟩

theorem slash_mem_dstPathOf (plat fn : List Char) :
    '/' ∈ Packer.dstPathOf plat fn := by
  unfold Packer.dstPathOf
  exact List.mem_append_left _ (by simp [String.toList])

theorem dstPathOf_length (plat fn : List Char) :
    (Packer.dstPathOf plat fn).length = 7 + plat.length + fn.length := by
  unfold Packer.dstPathOf
  simp [List.length_append]
  omega

theorem openWrite_eq (fs : FS) (dst d nm : List Char)
    (hsp : lastSlashSplit dst = some (d, nm)) :
    openWrite fs dst = decide (d = [] ∨ d ∈ fs.dirs) := by
  unfold openWrite
  rw [hsp]

theorem lineStep_dirs_entry (wo : Nat → Nat) (fs : FS) (raw : List Char)
    (pf : List Char × List Char) (content : List Char) (d nm : List Char)
    (h0 : ¬ Packer.trimCRLF raw = [])
    (hp : Packer.parseManifestLine (Packer.trimCRLF raw) = some pf)
    (hs : lookF fs.files (Packer.srcPathOf pf.2) = some content)
    (hsp : lastSlashSplit (Packer.dstPathOf pf.1 pf.2) = some (d, nm)) :
    (Packer.lineStep wo fs raw).1.dirs = (mkpath fs d).1.dirs := by
  unfold Packer.lineStep Packer.copyFile
  rw [if_neg h0, hp]
  simp only
  rw [hs]
  simp only
  rw [hsp]
  simp only
  by_cases ho : openWrite (mkpath fs d).1 (Packer.dstPathOf pf.1 pf.2)
  · rw [if_pos ho]
  · rw [if_neg ho]

theorem stepAgree (wo : Nat → Nat) (l : List Char) (u w uF : FS)
    (hden : u.denied = w.denied)
    (hlook : ∀ k, k.head? ≠ some '/' → lookF w.files k = lookF u.files k)
    (hrelF : StepRel (Packer.lineStep wo u l).1 uF)
    (hdirsF : ∀ p, p ∈ uF.dirs → p ∈ w.dirs)
    (hkeysF : ∀ p, p ∈ uF.keys → p ∈ w.keys)
    (hblockD : ∀ p, p ∈ u.denied → p ∉ uF.dirs → p ∉ w.dirs)
    (hblockK : ∀ p, p ∈ uF.keys → p ∉ uF.dirs → p ∉ w.dirs) :
    Packer.stepWrite wo w l = Packer.stepWrite wo u l ∧
      (Packer.lineStep wo w l).1.dirs = w.dirs := by
  have hSRu : StepRel u (Packer.lineStep wo u l).1 := steprel_lineStep wo u l
  by_cases h0 : Packer.trimCRLF l = []
  · constructor
    · unfold Packer.stepWrite
      rw [if_pos h0, if_pos h0]
    · unfold Packer.lineStep
      rw [if_pos h0]
  · rcases hp : Packer.parseManifestLine (Packer.trimCRLF l) with _ | pf
    · constructor
      · unfold Packer.stepWrite
        rw [if_neg h0, if_neg h0, hp]
      · unfold Packer.lineStep
        rw [if_neg h0, hp]
    · -- a valid entry
      have hsrchead : (Packer.srcPathOf pf.2).head? ≠ some '/' := by
        rw [srcPathOf_head]
        simp
      have hsrcw : lookF w.files (Packer.srcPathOf pf.2) =
          lookF u.files (Packer.srcPathOf pf.2) := hlook _ hsrchead
      rcases hs : lookF u.files (Packer.srcPathOf pf.2) with _ | content
      · rw [hs] at hsrcw
        constructor
        · unfold Packer.stepWrite
          rw [if_neg h0, if_neg h0, hp]
          simp only
          rw [hs, hsrcw]
        · unfold Packer.lineStep Packer.copyFile
          rw [if_neg h0, hp]
          simp only
          rw [hsrcw]
      · rw [hs] at hsrcw
        -- split the destination path at its last slash
        obtain ⟨⟨d, nm⟩, hsp⟩ :=
          lastSlashSplit_isSome _ (slash_mem_dstPathOf pf.1 pf.2)
        have hbounds := parse_bounds _ pf hp
        have hdlen : d.length ≤ 1023 := by
          have hdst := lastSlashSplit_eq _ _ hsp
          have h1 : (Packer.dstPathOf pf.1 pf.2).length =
              7 + pf.1.length + pf.2.length := dstPathOf_length pf.1 pf.2
          have h2 : (Packer.dstPathOf pf.1 pf.2).length =
              d.length + (1 + nm.length) := by
            rw [hdst]
            simp [List.length_append]
            omega
          have h3 := hbounds.2.1
          have h4 := hbounds.2.2.2.2
          omega
        have hu1dirs : (Packer.lineStep wo u l).1.dirs =
            (mkpath u d).1.dirs :=
          lineStep_dirs_entry wo u l pf content d nm h0 hp hs hsp
        have hsettled : ∀ q ∈ Packer.mkAttempts d,
            q ∈ w.keys ∨ q ∈ w.dirs ∨ q ∈ w.denied := by
          intro q hq
          by_cases hqd : q ∈ u.dirs
          · refine Or.inr (Or.inl (hdirsF q (hrelF.2.1 q ?_)))
            rw [hu1dirs, mkpath_dirs_mem]
            exact Or.inl hqd
          · by_cases hqk : q ∈ u.keys
            · exact Or.inl (hkeysF q (hrelF.2.2.1 q (hSRu.2.2.1 q hqk)))
            · by_cases hqdn : q ∈ u.denied
              · exact Or.inr (Or.inr (hden ▸ hqdn))
              · refine Or.inr (Or.inl (hdirsF q (hrelF.2.1 q ?_)))
                rw [hu1dirs, mkpath_dirs_mem]
                exact Or.inr ⟨hq, hqk, hqdn⟩
        have hwnoop : (mkpath w d).1 = w := mkpath_noop w d hsettled
        have havail : openWrite w (Packer.dstPathOf pf.1 pf.2) =
            openWrite (mkpath u d).1 (Packer.dstPathOf pf.1 pf.2) := by
          rw [openWrite_eq _ _ d nm hsp, openWrite_eq _ _ d nm hsp]
          by_cases hd0 : d = []
          · simp [hd0]
          · have hiff : d ∈ w.dirs ↔ d ∈ (mkpath u d).1.dirs := by
              constructor
              · intro hdw
                by_contra hnd
                have hdA : d ∈ Packer.mkAttempts d :=
                  mem_mkAttempts_self d hd0 hdlen
                have hnotu : d ∉ u.dirs := by
                  intro hdu
                  exact hnd (by rw [mkpath_dirs_mem]; exact Or.inl hdu)
                have hblocked : d ∈ u.keys ∨ d ∈ u.denied := by
                  by_contra hno
                  push_neg at hno
                  exact hnd (by
                    rw [mkpath_dirs_mem]
                    exact Or.inr ⟨hdA, hno.1, hno.2⟩)
                have hndu1 : d ∉ (Packer.lineStep wo u l).1.dirs := by
                  rw [hu1dirs]
                  exact hnd
                rcases hblocked with hbk | hbd
                · have h5 : d ∈ (Packer.lineStep wo u l).1.keys :=
                    hSRu.2.2.1 d hbk
                  have h6 : d ∉ uF.dirs :=
                    hrelF.2.2.2.2.1 d h5 hndu1
                  exact hblockK d (hrelF.2.2.1 d h5) h6 hdw
                · have h5 : d ∈ (Packer.lineStep wo u l).1.denied := by
                    rw [← hSRu.1]
                    exact hbd
                  have h6 : d ∉ uF.dirs :=
                    hrelF.2.2.2.1 d h5 hndu1
                  exact hblockD d hbd h6 hdw
              · intro hdu
                refine hdirsF d (hrelF.2.1 d ?_)
                rw [hu1dirs]
                exact hdu
            rw [decide_eq_decide]
            simp only [hd0, false_or]
            exact hiff
        refine ⟨?_, ?_⟩
        · unfold Packer.stepWrite
          rw [if_neg h0, if_neg h0, hp]
          simp only
          rw [hs, hsrcw]
          simp only
          rw [hsp]
          simp only
          simp only [hwnoop, havail]
        · rw [lineStep_dirs_entry wo w l pf content d nm h0 hp hsrcw hsp,
            hwnoop]

theorem runAgree (wo : Nat → Nat) : ∀ (lines : List (List Char)) (u w : FS),
    u.denied = w.denied →
    (∀ k, k.head? ≠ some '/' → lookF w.files k = lookF u.files k) →
    (∀ p, p ∈ (Packer.processLines wo u lines).1.dirs → p ∈ w.dirs) →
    (∀ p, p ∈ (Packer.processLines wo u lines).1.keys → p ∈ w.keys) →
    (∀ p, p ∈ u.denied →
      p ∉ (Packer.processLines wo u lines).1.dirs → p ∉ w.dirs) →
    (∀ p, p ∈ (Packer.processLines wo u lines).1.keys →
      p ∉ (Packer.processLines wo u lines).1.dirs → p ∉ w.dirs) →
    Packer.writeTrace wo w lines = Packer.writeTrace wo u lines ∧
      (Packer.processLines wo w lines).1.dirs = w.dirs := by
  intro lines
  induction lines with
  | nil =>
    intro u w _ _ _ _ _ _
    exact ⟨rfl, rfl⟩
  | cons l rest ih =>
    intro u w hden hlook hdirsF hkeysF hblockD hblockK
    have hFeq : (Packer.processLines wo u (l :: rest)).1 =
        (Packer.processLines wo (Packer.lineStep wo u l).1 rest).1 := rfl
    rw [hFeq] at hdirsF hkeysF hblockD hblockK
    obtain ⟨hsw, hwdirs⟩ := stepAgree wo l u w
      (Packer.processLines wo (Packer.lineStep wo u l).1 rest).1
      hden hlook
      (steprel_processLines wo rest (Packer.lineStep wo u l).1)
      hdirsF hkeysF hblockD hblockK
    have hSRu := steprel_lineStep wo u l
    have hSRw := steprel_lineStep wo w l
    have hden2 : (Packer.lineStep wo u l).1.denied =
        (Packer.lineStep wo w l).1.denied := by
      rw [← hSRu.1, ← hSRw.1]
      exact hden
    have hlook2 : ∀ k, k.head? ≠ some '/' →
        lookF (Packer.lineStep wo w l).1.files k =
          lookF (Packer.lineStep wo u l).1.files k := fun k hk =>
      ((hSRw.2.2.2.2.2 k hk).trans (hlook k hk)).trans
        (hSRu.2.2.2.2.2 k hk).symm
    have hdirsF2 : ∀ p,
        p ∈ (Packer.processLines wo (Packer.lineStep wo u l).1 rest).1.dirs →
          p ∈ (Packer.lineStep wo w l).1.dirs := by
      intro p hp
      rw [hwdirs]
      exact hdirsF p hp
    have hkeysF2 : ∀ p,
        p ∈ (Packer.processLines wo (Packer.lineStep wo u l).1 rest).1.keys →
          p ∈ (Packer.lineStep wo w l).1.keys := fun p hp =>
      hSRw.2.2.1 p (hkeysF p hp)
    have hblockD2 : ∀ p, p ∈ (Packer.lineStep wo u l).1.denied →
        p ∉ (Packer.processLines wo (Packer.lineStep wo u l).1 rest).1.dirs →
          p ∉ (Packer.lineStep wo w l).1.dirs := by
      intro p hp hnp
      rw [hwdirs]
      exact hblockD p (hSRu.1 ▸ hp) hnp
    have hblockK2 : ∀ p,
        p ∈ (Packer.processLines wo (Packer.lineStep wo u l).1 rest).1.keys →
        p ∉ (Packer.processLines wo (Packer.lineStep wo u l).1 rest).1.dirs →
          p ∉ (Packer.lineStep wo w l).1.dirs := by
      intro p hp hnp
      rw [hwdirs]
      exact hblockK p hp hnp
    obtain ⟨htr, hd2⟩ := ih (Packer.lineStep wo u l).1
      (Packer.lineStep wo w l).1 hden2 hlook2 hdirsF2 hkeysF2 hblockD2
      hblockK2
    constructor
    · show (Packer.stepWrite wo w l).toList ++
          Packer.writeTrace wo (Packer.lineStep wo w l).1 rest =
        (Packer.stepWrite wo u l).toList ++
          Packer.writeTrace wo (Packer.lineStep wo u l).1 rest
      rw [hsw, htr]
    · show (Packer.processLines wo (Packer.lineStep wo w l).1 rest).1.dirs =
        w.dirs
      rw [hd2, hwdirs]

theorem processLines_idem (wo : Nat → Nat) (fs : FS)
    (lines : List (List Char)) :
    (Packer.processLines wo
        (Packer.processLines wo fs lines).1 lines).1.dirs =
      (Packer.processLines wo fs lines).1.dirs ∧
    (Packer.processLines wo
        (Packer.processLines wo fs lines).1 lines).1.denied =
      (Packer.processLines wo fs lines).1.denied ∧
    ∀ k, lookF (Packer.processLines wo
        (Packer.processLines wo fs lines).1 lines).1.files k =
      lookF (Packer.processLines wo fs lines).1.files k := by
  have hSR : StepRel fs (Packer.processLines wo fs lines).1 :=
    steprel_processLines wo lines fs
  obtain ⟨htr, hdirs⟩ := runAgree wo lines fs
    (Packer.processLines wo fs lines).1
    hSR.1
    (fun k hk => hSR.2.2.2.2.2 k hk)
    (fun p hp => hp)
    (fun p hp => hp)
    (fun p _ hnp => hnp)
    (fun p _ hnp => hnp)
  refine ⟨hdirs,
    (steprel_processLines wo lines (Packer.processLines wo fs lines).1).1.symm,
    ?_⟩
  intro k
  have h1 := processLines_look wo lines (Packer.processLines wo fs lines).1 k
  have h2 := processLines_look wo lines fs k
  rw [h1, htr, h2, oor_self]

theorem manifestPath_head : Packer.manifestPath.head? = some 'r' := rfl

theorem engine_idem (wo : Nat → Nat) (fs : FS) :
    (Packer.engineRun wo (Packer.engineRun wo fs).1).1.dirs =
      (Packer.engineRun wo fs).1.dirs ∧
    (Packer.engineRun wo (Packer.engineRun wo fs).1).1.denied =
      (Packer.engineRun wo fs).1.denied ∧
    ∀ k, lookF (Packer.engineRun wo (Packer.engineRun wo fs).1).1.files k =
      lookF (Packer.engineRun wo fs).1.files k := by
  unfold Packer.engineRun
  rcases hm : lookF fs.files Packer.manifestPath with _ | content
  · simp [hm]
  · simp only [hm]
    have hpres : lookF (Packer.processLines wo fs
        (Packer.fgetsSplit content)).1.files Packer.manifestPath =
          some content := by
      rw [(steprel_processLines wo (Packer.fgetsSplit content) fs).2.2.2.2.2
        Packer.manifestPath (by rw [manifestPath_head]; simp), hm]
    rw [hpres]
    simp only
    exact processLines_idem wo fs (Packer.fgetsSplit content)

theorem copyChunks_cons_full (wo : Nat → Nat) (k : Nat) (c : List Char)
    (rest : List (List Char)) (h : min (wo k) c.length = c.length) :
    Packer.copyChunks wo k (c :: rest) =
      (c ++ (Packer.copyChunks wo (k + 1) rest).1,
        (Packer.copyChunks wo (k + 1) rest).2) := by
  simp only [Packer.copyChunks]
  rw [if_pos h]

theorem copyChunks_cons_short (wo : Nat → Nat) (k : Nat) (c : List Char)
    (rest : List (List Char)) (h : ¬ min (wo k) c.length = c.length) :
    Packer.copyChunks wo k (c :: rest) =
      (c.take (min (wo k) c.length), false) := by
  simp only [Packer.copyChunks]
  rw [if_neg h]

theorem copyChunks_take (wo : Nat → Nat) :
    ∀ (n : Nat) (v : List Char), v.length ≤ n → ∀ k,
      ∃ m, (Packer.copyChunks wo k (Packer.chunkList v)).1 = v.take m ∧
        m ≤ v.length ∧
        ((Packer.copyChunks wo k (Packer.chunkList v)).2 = false →
          m < v.length) := by
  intro n
  induction n with
  | zero =>
    intro v hv k
    have hnil : v = [] := List.length_eq_zero.mp (Nat.le_zero.mp hv)
    subst hnil
    rw [chunkList_eq]
    simp only [if_pos rfl]
    exact ⟨0, by simp [Packer.copyChunks], by simp,
      by simp [Packer.copyChunks]⟩
  | succ mn ih =>
    intro v hv k
    by_cases hnil : v = []
    · subst hnil
      rw [chunkList_eq]
      simp only [if_pos rfl]
      exact ⟨0, by simp [Packer.copyChunks], by simp,
        by simp [Packer.copyChunks]⟩
    · rw [chunkList_eq]
      simp only [if_neg hnil]
      have hpos : 0 < v.length := List.length_pos.mpr hnil
      have htlen : (v.take 8192).length = min 8192 v.length := by
        simp [List.length_take]
      by_cases hw : min (wo k) (v.take 8192).length = (v.take 8192).length
      · rw [copyChunks_cons_full wo k _ _ hw]
        by_cases hsmall : v.length ≤ 8192
        · have hdropnil : v.drop 8192 = [] := by
            rw [List.drop_eq_nil_iff_le]
            exact hsmall
          have htake : v.take 8192 = v := List.take_of_length_le hsmall
          rw [hdropnil, chunkList_eq]
          simp only [if_pos rfl]
          refine ⟨v.length, ?_, le_refl _, by simp [Packer.copyChunks]⟩
          simp [Packer.copyChunks, htake, List.take_length]
        · push_neg at hsmall
          have hdlen2 : (v.drop 8192).length ≤ mn := by
            simp only [List.length_drop]
            omega
          obtain ⟨m2, hm2, hm2le, hm2lt⟩ := ih (v.drop 8192) hdlen2 (k + 1)
          rw [List.length_drop] at hm2le hm2lt
          refine ⟨8192 + m2, ?_, by omega, ?_⟩
          · simp only
            rw [hm2, List.take_add]
          · intro hfail
            simp only at hfail
            have := hm2lt hfail
            omega
      · rw [copyChunks_cons_short wo k _ _ hw]
        have hlt : min (wo k) (v.take 8192).length < (v.take 8192).length :=
          lt_of_le_of_ne (Nat.min_le_right _ _) hw
        refine ⟨min (wo k) (v.take 8192).length, ?_, by omega, fun _ => by omega⟩
        simp only
        rw [List.take_take]
        congr 1
        omega

theorem parse_wellformed (plat fn : List Char)
    (hp1 : plat ≠ []) (hp2 : plat.length ≤ 159) (hp3 : '\t' ∉ plat)
    (hf1 : fn ≠ []) (hf2 : fn.length ≤ 575) (hf3 : '\n' ∉ fn)
    (hf4 : ∀ c, fn.head? = some c → Packer.isCSpace c = false) :
    Packer.parseManifestLine (plat ++ '\t' :: fn) = some (plat, fn) := by
  have hall : ∀ c ∈ plat, (fun c => decide (c ≠ '\t')) c = true := by
    intro c hc
    simp only [decide_eq_true_eq]
    intro he
    exact hp3 (he ▸ hc)
  have hstop : ¬ (fun c => decide (c ≠ '\t')) '\t' = true := by simp
  unfold Packer.parseManifestLine
  rw [Packer.takeUpTo_stops 159 _ plat '\t' fn hall hp2 hstop]
  simp only
  rw [if_neg hp1]
  have hdw : List.dropWhile Packer.isCSpace ('\t' :: fn) = fn := by
    rw [List.dropWhile_cons]
    rw [if_pos (show Packer.isCSpace '\t' = true from rfl)]
    cases fn with
    | nil => exact absurd rfl hf1
    | cons f0 fs =>
      rw [List.dropWhile_cons, if_neg]
      rw [hf4 f0 rfl]
      simp
  rw [hdw]
  have hall2 : ∀ c ∈ fn, (fun c => decide (c ≠ '\n')) c = true := by
    intro c hc
    simp only [decide_eq_true_eq]
    intro he
    exact hf3 (he ▸ hc)
  rw [Packer.takeUpTo_exhausts 575 _ fn hall2 hf2]
  simp only
  rw [if_neg hf1]

theorem dst_dir_length (plat fn d nm : List Char)
    (hsp : lastSlashSplit (Packer.dstPathOf plat fn) = some (d, nm))
    (hp2 : plat.length ≤ 159) (hf2 : fn.length ≤ 575) :
    d.length ≤ 1023 := by
  have hdst := lastSlashSplit_eq _ _ hsp
  have h1 := dstPathOf_length plat fn
  have h2 : (Packer.dstPathOf plat fn).length = d.length + (1 + nm.length) := by
    rw [hdst]
    simp [List.length_append]
    omega
  omega

theorem dst_dir_not_key (fs : FS) (plat fn d nm : List Char)
    (hsp : lastSlashSplit (Packer.dstPathOf plat fn) = some (d, nm))
    (hd0 : d ≠ [])
    (hkeysR : ∀ p, p ∈ fs.keys → p.head? = some 'r') : d ∉ fs.keys := by
  intro hk
  have hr := hkeysR d hk
  have hdsteq := lastSlashSplit_eq _ _ hsp
  have hh : (Packer.dstPathOf plat fn).head? = some '/' :=
    dstPathOf_head plat fn
  rw [hdsteq] at hh
  rcases d with _ | ⟨d0, ds⟩
  · exact absurd rfl hd0
  · simp only [List.cons_append, List.head?_cons, Option.some.injEq] at hh hr
    rw [hh] at hr
    exact absurd hr (by decide)

theorem lineStep_entry_write (wo : Nat → Nat) (fs : FS) (raw : List Char)
    (plat fn content : List Char)
    (htrim : Packer.trimCRLF raw = plat ++ '\t' :: fn)
    (hp1 : plat ≠ []) (hp2 : plat.length ≤ 159) (hp3 : '\t' ∉ plat)
    (hf1 : fn ≠ []) (hf2 : fn.length ≤ 575) (hf3 : '\n' ∉ fn)
    (hf4 : ∀ c, fn.head? = some c → Packer.isCSpace c = false)
    (hsrc : lookF fs.files (Packer.srcPathOf fn) = some content)
    (hdenied : fs.denied = [])
    (hkeysR : ∀ p, p ∈ fs.keys → p.head? = some 'r') :
    (Packer.lineStep wo fs raw).2 =
      [Packer.CopyEvent.copying (Packer.srcPathOf fn)
        (Packer.dstPathOf plat fn)] ++
        (if (Packer.copyChunks wo 0 (Packer.chunkList content)).2
          then [Packer.CopyEvent.done]
          else [Packer.CopyEvent.copyFailed
            (MAKERESULT Module_Libnx LibnxError_IoError)]) ∧
    lookF (Packer.lineStep wo fs raw).1.files (Packer.dstPathOf plat fn) =
      some (Packer.copyChunks wo 0 (Packer.chunkList content)).1 := by
  have hparse := parse_wellformed plat fn hp1 hp2 hp3 hf1 hf2 hf3 hf4
  have h0 : ¬ Packer.trimCRLF raw = [] := by
    rw [htrim]
    intro h
    have := congrArg List.length h
    simp at this
  obtain ⟨⟨d, nm⟩, hsp⟩ :=
    lastSlashSplit_isSome _ (slash_mem_dstPathOf plat fn)
  have hopen : openWrite (mkpath fs d).1 (Packer.dstPathOf plat fn) = true := by
    rw [openWrite_eq _ _ d nm hsp]
    simp only [decide_eq_true_eq]
    by_cases hd0 : d = []
    · exact Or.inl hd0
    · right
      rw [mkpath_dirs_mem]
      right
      refine ⟨mem_mkAttempts_self d hd0
          (dst_dir_length plat fn d nm hsp hp2 hf2),
        dst_dir_not_key fs plat fn d nm hsp hd0 hkeysR, ?_⟩
      rw [hdenied]
      simp
  unfold Packer.lineStep
  rw [if_neg h0, htrim, hparse]
  simp only
  unfold Packer.copyFile
  rw [hsrc]
  simp only
  rw [hsp]
  simp only
  rw [if_pos hopen]
  constructor
  · by_cases hr2 : (Packer.copyChunks wo 0 (Packer.chunkList content)).2 <;>
      simp [hr2, MAKERESULT, Module_Libnx, LibnxError_IoError]
  · show lookF (setF (mkpath fs d).1.files (Packer.dstPathOf plat fn)
        (Packer.copyChunks wo 0 (Packer.chunkList content)).1)
      (Packer.dstPathOf plat fn) = _
    rw [lookF_setF, if_pos rfl]

theorem countOutcomes_lineStep (wo : Nat → Nat) (fs : FS) (l : List Char) :
    Packer.countOutcomes (Packer.lineStep wo fs l).2 =
      (if (Packer.trimCRLF l).isEmpty then 0 else 1) := by
  unfold Packer.lineStep
  by_cases h0 : Packer.trimCRLF l = []
  · simp [h0, Packer.countOutcomes]
  · rw [if_neg h0]
    have hne : (Packer.trimCRLF l).isEmpty = false := by
      rcases h : Packer.trimCRLF l with _ | _
      · exact absurd h h0
      · rfl
    rcases hp : Packer.parseManifestLine (Packer.trimCRLF l) with _ | pf
    · simp [hne, Packer.countOutcomes, Packer.isOutcome]
    · simp only
      by_cases hrc : (Packer.copyFile wo fs (Packer.srcPathOf pf.2)
          (Packer.dstPathOf pf.1 pf.2)).2 = 0 <;>
        simp [hrc, hne, Packer.countOutcomes, Packer.isOutcome]

theorem countOutcomes_append (a b : List Packer.CopyEvent) :
    Packer.countOutcomes (a ++ b) =
      Packer.countOutcomes a + Packer.countOutcomes b := by
  unfold Packer.countOutcomes
  rw [List.filter_append, List.length_append]

theorem countOutcomes_processLines (wo : Nat → Nat)
    (lines : List (List Char)) : ∀ fs,
    Packer.countOutcomes (Packer.processLines wo fs lines).2 =
      Packer.countNonempty lines := by
  induction lines with
  | nil => intro fs; rfl
  | cons l rest ih =>
    intro fs
    show Packer.countOutcomes ((Packer.lineStep wo fs l).2 ++
      (Packer.processLines wo (Packer.lineStep wo fs l).1 rest).2) = _
    rw [countOutcomes_append, countOutcomes_lineStep,
      ih (Packer.lineStep wo fs l).1]
    show _ = (List.filter (fun l => !(Packer.trimCRLF l).isEmpty)
      (l :: rest)).length
    rw [List.filter_cons]
    by_cases he : (Packer.trimCRLF l).isEmpty <;>
      simp [he, Packer.countNonempty, Nat.add_comm]

theorem attemptsLoop_length : ∀ (rest pre q : List Char),
    q ∈ Packer.attemptsLoop pre rest →
      q.length < pre.length + rest.length := by
  intro rest
  induction rest with
  | nil =>
    intro pre q hq
    simp [Packer.attemptsLoop] at hq
  | cons c rs ih =>
    intro pre q hq
    unfold Packer.attemptsLoop at hq
    by_cases hc : c = '/'
    · rw [if_pos hc] at hq
      rcases List.mem_cons.mp hq with rfl | hq
      · simp
      · have hlen := ih (pre ++ [c]) q hq
        simp [List.length_append] at hlen ⊢
        omega
    · rw [if_neg hc] at hq
      have hlen := ih (pre ++ [c]) q hq
      simp [List.length_append] at hlen ⊢
      omega

theorem mkdirM_res_eother (fs : FS) (p : List Char)
    (hk : p ∉ fs.keys) (hd : p ∉ fs.dirs) (hdn : p ∈ fs.denied) :
    mkdirM fs p = (fs, .eother) := by
  unfold mkdirM
  rw [if_neg hk, if_neg hd, if_pos hdn]

theorem mkpath_flag_denied (fs : FS) (d : List Char)
    (hlen : d.length ≤ 1023) (hd0 : d ≠ [])
    (hk : d ∉ fs.keys) (hnd : d ∉ fs.dirs) (hden : d ∈ fs.denied) :
    (mkpath fs d).2 = false := by
  unfold mkpath
  rcases ht : d.take 1023 with _ | ⟨c, rs⟩
  · rw [List.take_of_length_le hlen] at ht
    exact absurd ht hd0
  · rw [List.take_of_length_le hlen] at ht
    subst ht
    simp only
    have hnotloop : c :: rs ∉ (mkpathLoop fs [c] rs).dirs := by
      rw [mkpathLoop_dirs_mem]
      rintro (h | ⟨ha, h1, h2⟩)
      · exact hnd h
      · have hlen2 := attemptsLoop_length rs [c] _ ha
        simp at hlen2
        omega
    rw [mkdirM_res_eother (mkpathLoop fs [c] rs) (c :: rs)
      (by rw [mkpathLoop_keys]; exact hk) hnotloop
      (by rw [mkpathLoop_denied]; exact hden)]

theorem dstPathOf_assoc (plat fn : List Char) :
    Packer.dstPathOf plat fn =
      ("/roms/".toList ++ plat) ++ '/' :: fn := by
  unfold Packer.dstPathOf
  rw [List.append_assoc]
  rfl

theorem lineStep_entry_denied (wo : Nat → Nat) (fs : FS) (raw : List Char)
    (plat fn content : List Char)
    (htrim : Packer.trimCRLF raw = plat ++ '\t' :: fn)
    (hp1 : plat ≠ []) (hp2 : plat.length ≤ 159) (hp3 : '\t' ∉ plat)
    (hf1 : fn ≠ []) (hf2 : fn.length ≤ 575) (hf3 : '\n' ∉ fn)
    (hf4 : ∀ c, fn.head? = some c → Packer.isCSpace c = false)
    (hfn : '/' ∉ fn)
    (hsrc : lookF fs.files (Packer.srcPathOf fn) = some content)
    (hden : ("/roms/".toList ++ plat) ∈ fs.denied)
    (hnd : ("/roms/".toList ++ plat) ∉ fs.dirs)
    (hk : ("/roms/".toList ++ plat) ∉ fs.keys) :
    (Packer.lineStep wo fs raw).2 =
      [Packer.CopyEvent.copying (Packer.srcPathOf fn)
        (Packer.dstPathOf plat fn),
       Packer.CopyEvent.copyFailed
        (MAKERESULT Module_Libnx LibnxError_IoError)] ∧
    (Packer.lineStep wo fs raw).1.files = fs.files ∧
    (mkpath fs ("/roms/".toList ++ plat)).2 = false := by
  have hparse := parse_wellformed plat fn hp1 hp2 hp3 hf1 hf2 hf3 hf4
  have h0 : ¬ Packer.trimCRLF raw = [] := by
    rw [htrim]
    intro h
    have hlen := congrArg List.length h
    simp at hlen
  have hsp : lastSlashSplit (Packer.dstPathOf plat fn) =
      some (("/roms/".toList ++ plat), fn) := by
    rw [dstPathOf_assoc]
    exact lastSlashSplit_append _ _ hfn
  have hAlen : ("/roms/".toList ++ plat).length ≤ 1023 := by
    simp [List.length_append]
    omega
  have hA0 : ("/roms/".toList ++ plat) ≠ [] := by
    intro h
    have hlen := congrArg List.length h
    simp at hlen
  have hnotdir : ("/roms/".toList ++ plat) ∉
      (mkpath fs ("/roms/".toList ++ plat)).1.dirs := by
    rw [mkpath_dirs_mem]
    rintro (h | ⟨ha, h1, h2⟩)
    · exact hnd h
    · exact h2 hden
  have hopen : openWrite (mkpath fs ("/roms/".toList ++ plat)).1
      (Packer.dstPathOf plat fn) = false := by
    rw [openWrite_eq _ _ _ fn hsp]
    simp only [decide_eq_false_iff_not]
    rintro (h | h)
    · exact hA0 h
    · exact hnotdir h
  have hcf : Packer.copyFile wo fs (Packer.srcPathOf fn)
      (Packer.dstPathOf plat fn) =
      ((mkpath fs ("/roms/".toList ++ plat)).1,
        MAKERESULT Module_Libnx LibnxError_IoError) := by
    unfold Packer.copyFile
    rw [hsrc]
    simp only
    rw [hsp]
    simp only
    rw [if_neg (by rw [hopen]; simp)]
  refine ⟨?_, ?_, mkpath_flag_denied fs _ hAlen hA0 hk hnd hden⟩
  · unfold Packer.lineStep
    rw [if_neg h0, htrim, hparse]
    simp only
    rw [hcf]
    have hio : MAKERESULT Module_Libnx LibnxError_IoError ≠ 0 := by decide
    simp [hio]
  · unfold Packer.lineStep
    rw [if_neg h0, htrim, hparse]
    simp only
    rw [hcf, mkpath_files]

theorem processLines_badLine (wo : Nat → Nat) (fs : FS) (raw : List Char)
    (rest : List (List Char))
    (h0 : Packer.trimCRLF raw ≠ [])
    (hp : Packer.parseManifestLine (Packer.trimCRLF raw) = none) :
    Packer.processLines wo fs (raw :: rest) =
      ((Packer.processLines wo fs rest).1,
        Packer.CopyEvent.badLine (Packer.trimCRLF raw) ::
          (Packer.processLines wo fs rest).2) := by
  have hstep : Packer.lineStep wo fs raw =
      (fs, [Packer.CopyEvent.badLine (Packer.trimCRLF raw)]) := by
    unfold Packer.lineStep
    rw [if_neg h0, hp]
  show ((Packer.processLines wo (Packer.lineStep wo fs raw).1 rest).1,
    (Packer.lineStep wo fs raw).2 ++
      (Packer.processLines wo (Packer.lineStep wo fs raw).1 rest).2) = _
  rw [hstep]
  simp

theorem parse_some_shape (cs : List Char) (pf : List Char × List Char)
    (h : Packer.parseManifestLine cs = some pf) :
    ∃ sep over, cs = pf.1 ++ sep ++ pf.2 ++ over ∧
      ∀ c ∈ sep, Packer.isCSpace c = true := by
  unfold Packer.parseManifestLine at h
  simp only at h
  by_cases h1 : (Packer.takeUpTo 159 (fun c => c ≠ '\t') cs).1 = []
  · rw [if_pos h1] at h
    exact Option.noConfusion h
  · rw [if_neg h1] at h
    by_cases h2 : (Packer.takeUpTo 575 (fun c => c ≠ '\n')
        (List.dropWhile Packer.isCSpace
          (Packer.takeUpTo 159 (fun c => c ≠ '\t') cs).2)).1 = []
    · rw [if_pos h2] at h
      exact Option.noConfusion h
    · rw [if_neg h2] at h
      simp only [Option.some.injEq] at h
      subst h
      refine ⟨List.takeWhile Packer.isCSpace
          (Packer.takeUpTo 159 (fun c => c ≠ '\t') cs).2,
        (Packer.takeUpTo 575 (fun c => c ≠ '\n')
          (List.dropWhile Packer.isCSpace
            (Packer.takeUpTo 159 (fun c => c ≠ '\t') cs).2)).2, ?_, ?_⟩
      · simp only [List.append_assoc]
        rw [Packer.takeUpTo_split 575 (fun c => c ≠ '\n')
          (List.dropWhile Packer.isCSpace
            (Packer.takeUpTo 159 (fun c => c ≠ '\t') cs).2)]
        rw [List.takeWhile_append_dropWhile]
        rw [Packer.takeUpTo_split 159 (fun c => c ≠ '\t') cs]
      · intro c hc
        exact List.mem_takeWhile_imp hc

/-! ### Helper lemmas: the forwarder -/

theorem head?_dropWhile (p : Char → Bool) (l : List Char) :
    ∀ c, (l.dropWhile p).head? = some c → p c = false := by
  induction l with
  | nil => intro c hc; simp at hc
  | cons a rest ih =>
    intro c hc
    rw [List.dropWhile_cons] at hc
    by_cases hp : p a
    · rw [if_pos hp] at hc
      exact ih c hc
    · rw [if_neg hp] at hc
      simp at hc
      rw [← hc]
      simpa using hp

theorem rstripWs_split (cs : List Char) :
    cs = Forwarder.rstripWs cs ++
        (cs.reverse.takeWhile Forwarder.isTrimWs).reverse ∧
      (∀ c ∈ (cs.reverse.takeWhile Forwarder.isTrimWs).reverse,
        Forwarder.isTrimWs c = true) := by
  constructor
  · unfold Forwarder.rstripWs
    rw [← List.reverse_append, List.takeWhile_append_dropWhile,
      List.reverse_reverse]
  · intro c hc
    rw [List.mem_reverse] at hc
    exact List.mem_takeWhile_imp hc

theorem rstripWs_length (cs : List Char) :
    (Forwarder.rstripWs cs).length ≤ cs.length := by
  unfold Forwarder.rstripWs
  rw [List.length_reverse]
  calc (cs.reverse.dropWhile Forwarder.isTrimWs).length
      ≤ cs.reverse.length := (List.dropWhile_sublist _).length_le
    _ = cs.length := List.length_reverse cs

theorem rstripWs_last (cs : List Char) :
    ∀ c, (Forwarder.rstripWs cs).getLast? = some c →
      Forwarder.isTrimWs c = false := by
  intro c hc
  unfold Forwarder.rstripWs at hc
  rw [List.getLast?_reverse] at hc
  exact head?_dropWhile _ _ c hc

theorem read_text_file_some (fs : FS) (path : List Char) (outsz : Nat)
    (content : List Char) (h : lookF fs.files path = some content) :
    Forwarder.read_text_file fs path outsz =
      Forwarder.rstripWs (content.take (outsz - 1)) := by
  unfold Forwarder.read_text_file
  rw [h]

theorem read_text_file_length (fs : FS) (path : List Char) (outsz : Nat) :
    (Forwarder.read_text_file fs path outsz).length ≤ outsz - 1 := by
  unfold Forwarder.read_text_file
  rcases h : lookF fs.files path with _ | content
  · simp
  · calc (Forwarder.rstripWs (content.take (outsz - 1))).length
        ≤ (content.take (outsz - 1)).length := rstripWs_length _
      _ ≤ outsz - 1 := by simp [List.length_take]

/-! ### Helper lemmas: the single-ROM stub -/

theorem stub_copyFile_rc (wo : Nat → Nat) (fs : FS)
    (srcPath dstPath content : List Char)
    (hsrc : lookF fs.files srcPath = some content)
    (hopen : openWrite fs dstPath = true) :
    Stub.copyFile wo fs srcPath dstPath =
      ({ fs with
          files := setF fs.files dstPath (Stub.stubCopyChunks wo 0 (Packer.chunkList content)) },
        0) := by
  unfold Stub.copyFile
  rw [hsrc]
  simp only
  rw [if_pos hopen]

/-! ### The claims -/

/-- C3: running the Manifest Copy Engine twice with an unchanged manifest
against the same output root is idempotent — the second run leaves the
directory tree exactly as the first run left it and every destination file
byte-identical — and never errors due to already-existing directories: for
any directory already present, `mkpath` reports success (the final
`mkdir`'s `EEXIST` is treated as success, not failure). -/
theorem c3_idempotent (wo : Nat → Nat) (fs : FS) :
    (Packer.engineRun wo (Packer.engineRun wo fs).1).1.dirs =
      (Packer.engineRun wo fs).1.dirs ∧
    (∀ k, lookF (Packer.engineRun wo (Packer.engineRun wo fs).1).1.files k =
      lookF (Packer.engineRun wo fs).1.files k) ∧
    (∀ p, p ∈ (Packer.engineRun wo fs).1.dirs → p.length ≤ 1023 →
      (mkpath (Packer.engineRun wo fs).1 p).2 = true) := by
  obtain ⟨h1, _, h3⟩ := engine_idem wo fs
  exact ⟨h1, h3, fun p hp hlen => mkpath_flag_eexist _ p hp hlen⟩

/-- C3 witness: a run over the one-line manifest `snes\tsuper_game.sfc`,
re-run on its own output. -/
theorem c3_witness :
    (Packer.engineRun (fun _ => 8192)
        (Packer.engineRun (fun _ => 8192)
          ⟨[], [("romfs:/filelist.txt".toList,
                  "snes\tsuper_game.sfc\n".toList),
                ("romfs:/super_game.sfc".toList, "ROMDATA".toList)],
            []⟩).1).1.dirs =
      (Packer.engineRun (fun _ => 8192)
          ⟨[], [("romfs:/filelist.txt".toList,
                  "snes\tsuper_game.sfc\n".toList),
                ("romfs:/super_game.sfc".toList, "ROMDATA".toList)],
            []⟩).1.dirs ∧
    lookF (Packer.engineRun (fun _ => 8192)
        (Packer.engineRun (fun _ => 8192)
          ⟨[], [("romfs:/filelist.txt".toList,
                  "snes\tsuper_game.sfc\n".toList),
                ("romfs:/super_game.sfc".toList, "ROMDATA".toList)],
            []⟩).1).1.files "/roms/snes/super_game.sfc".toList =
      lookF (Packer.engineRun (fun _ => 8192)
          ⟨[], [("romfs:/filelist.txt".toList,
                  "snes\tsuper_game.sfc\n".toList),
                ("romfs:/super_game.sfc".toList, "ROMDATA".toList)],
            []⟩).1.files "/roms/snes/super_game.sfc".toList ∧
    (mkpath (Packer.engineRun (fun _ => 8192)
          ⟨[], [("romfs:/filelist.txt".toList,
                  "snes\tsuper_game.sfc\n".toList),
                ("romfs:/super_game.sfc".toList, "ROMDATA".toList)],
            []⟩).1 "/roms".toList).2 = true := by
  have h := c3_idempotent (fun _ => 8192)
    ⟨[], [("romfs:/filelist.txt".toList, "snes\tsuper_game.sfc\n".toList),
          ("romfs:/super_game.sfc".toList, "ROMDATA".toList)], []⟩
  exact ⟨h.1, h.2.1 "/roms/snes/super_game.sfc".toList,
    h.2.2 "/roms".toList (by decide) (by decide)⟩

/-- C4: when the manifest is absent the engine reports the single fatal
missing-manifest condition, returns an empty summary (no per-entry events),
and leaves the filesystem untouched. -/
theorem c4_missing_manifest (wo : Nat → Nat) (fs : FS)
    (h : lookF fs.files Packer.manifestPath = none) :
    Packer.engineRun wo fs = (fs, [Packer.CopyEvent.missingManifest]) := by
  unfold Packer.engineRun
  rw [h]

/-- C4 witness: an empty filesystem has no manifest. -/
theorem c4_witness :
    Packer.engineRun (fun _ => 8192) (⟨[], [], []⟩ : FS) =
      ((⟨[], [], []⟩ : FS), [Packer.CopyEvent.missingManifest]) :=
  c4_missing_manifest (fun _ => 8192) ⟨[], [], []⟩ (by decide)

/-- C6: when the target-path record is empty after trimming, the forwarder
logs the missing-target condition (`ERROR: nextNroPath missing`), never
invokes `chainload_nro`, returns no chainload result, and still reaches the
idle loop. -/
theorem c6_target_missing (fs : FS)
    (h : Forwarder.read_text_file fs Forwarder.NRO_FILE 512 = []) :
    (Forwarder.forwarderMain fs).chainAttempted = false ∧
    (Forwarder.forwarderMain fs).rc = none ∧
    Forwarder.FwdEvent.errTargetMissing ∈ (Forwarder.forwarderMain fs).log ∧
    (Forwarder.forwarderMain fs).reachedIdle = true := by
  unfold Forwarder.forwarderMain
  simp [h]

/-- C6 witness: a target record holding only whitespace trims to empty. -/
theorem c6_witness :
    (Forwarder.forwarderMain
        ⟨[], [(Forwarder.NRO_FILE, " \r\n".toList)], []⟩).chainAttempted =
      false ∧
    (Forwarder.forwarderMain
        ⟨[], [(Forwarder.NRO_FILE, " \r\n".toList)], []⟩).rc = none ∧
    Forwarder.FwdEvent.errTargetMissing ∈
      (Forwarder.forwarderMain
        ⟨[], [(Forwarder.NRO_FILE, " \r\n".toList)], []⟩).log ∧
    (Forwarder.forwarderMain
        ⟨[], [(Forwarder.NRO_FILE, " \r\n".toList)], []⟩).reachedIdle =
      true :=
  c6_target_missing ⟨[], [(Forwarder.NRO_FILE, " \r\n".toList)], []⟩
    (by decide)

/-- C7 counterexample: the handoff's failure code is the fixed stub result
`MAKERESULT(346, 1)` (`chainload_nro` is unimplemented), not the
repository's not-found kind — here the target executable does not exist
anywhere in the filesystem, and the reported code still is not
`HandoffTargetNotFoundResult`. -/
theorem c7_counterexample :
    (Forwarder.forwarderMain
        ⟨[], [(Forwarder.NRO_FILE, "sdmc:/x.nro".toList)], []⟩).rc =
      some (MAKERESULT 346 1) ∧
    MAKERESULT 346 1 ≠ Forwarder.HandoffTargetNotFoundResult ∧
    lookF (⟨[], [(Forwarder.NRO_FILE, "sdmc:/x.nro".toList)],
        []⟩ : FS).files "sdmc:/x.nro".toList = none :=
  ⟨by decide, by decide, by decide⟩

/-- C7 (amended): a handoff attempt with a non-empty target path always
fails with the fixed stub code `MAKERESULT(346, 1)` — whether or not the
target exists — and the failure is surfaced to the caller, which logs it
(`chainload_nro not implemented`) and keeps the process alive into the
idle loop rather than exiting silently. -/
theorem c7_amended (fs : FS)
    (h : Forwarder.read_text_file fs Forwarder.NRO_FILE 512 ≠ []) :
    (Forwarder.forwarderMain fs).chainAttempted = true ∧
    (Forwarder.forwarderMain fs).rc = some (MAKERESULT 346 1) ∧
    R_FAILED (MAKERESULT 346 1) ∧
    Forwarder.FwdEvent.chainloadNotImplemented (MAKERESULT 346 1) ∈
      (Forwarder.forwarderMain fs).log ∧
    (Forwarder.forwarderMain fs).reachedIdle = true := by
  refine ⟨?_, ?_, by decide, ?_, ?_⟩
  · simp only [Forwarder.forwarderMain, if_neg h]
  · simp only [Forwarder.forwarderMain, if_neg h]
    rfl
  · simp only [Forwarder.forwarderMain, if_neg h]
    simp [Forwarder.chainload_nro, MAKERESULT]
  · simp only [Forwarder.forwarderMain, if_neg h]

/-- C7 witness: a handoff attempt at a concrete non-empty target path. -/
theorem c7_witness :
    (Forwarder.forwarderMain
        ⟨[], [(Forwarder.NRO_FILE, "sdmc:/retroarch.nro\n".toList)],
          []⟩).chainAttempted = true ∧
    (Forwarder.forwarderMain
        ⟨[], [(Forwarder.NRO_FILE, "sdmc:/retroarch.nro\n".toList)],
          []⟩).rc = some (MAKERESULT 346 1) ∧
    R_FAILED (MAKERESULT 346 1) ∧
    Forwarder.FwdEvent.chainloadNotImplemented (MAKERESULT 346 1) ∈
      (Forwarder.forwarderMain
        ⟨[], [(Forwarder.NRO_FILE, "sdmc:/retroarch.nro\n".toList)],
          []⟩).log ∧
    (Forwarder.forwarderMain
        ⟨[], [(Forwarder.NRO_FILE, "sdmc:/retroarch.nro\n".toList)],
          []⟩).reachedIdle = true :=
  c7_amended
    ⟨[], [(Forwarder.NRO_FILE, "sdmc:/retroarch.nro\n".toList)], []⟩
    (by decide)

/-- C10: the single-ROM stub's `copyFile` reports success (result `0`)
whenever the source and destination both open, regardless of how many
bytes each `fwrite` actually stored: the destination ends up holding
whatever the device accepted, and a short write is silently reported as a
successful copy. -/
theorem c10_stub_ignores_short_writes (wo : Nat → Nat) (fs : FS)
    (srcPath dstPath content : List Char)
    (hsrc : lookF fs.files srcPath = some content)
    (hopen : openWrite fs dstPath = true) :
    (Stub.copyFile wo fs srcPath dstPath).2 = 0 ∧
    lookF (Stub.copyFile wo fs srcPath dstPath).1.files dstPath =
      some (Stub.stubCopyChunks wo 0 (Packer.chunkList content)) := by
  rw [stub_copyFile_rc wo fs srcPath dstPath content hsrc hopen]
  refine ⟨rfl, ?_⟩
  show lookF (setF fs.files dstPath _) dstPath = _
  rw [lookF_setF, if_pos rfl]

/-- C10 witness: with a device that accepts zero bytes per `fwrite`, the
stub still reports `0` while the destination holds none of the source's
bytes. -/
theorem c10_witness :
    (Stub.copyFile (fun _ => 0)
        ⟨["/switch/roms".toList],
          [("romfs:/rom.bin".toList, "AB".toList)], []⟩
        "romfs:/rom.bin".toList "/switch/roms/rom.bin".toList).2 = 0 ∧
    lookF (Stub.copyFile (fun _ => 0)
        ⟨["/switch/roms".toList],
          [("romfs:/rom.bin".toList, "AB".toList)], []⟩
        "romfs:/rom.bin".toList "/switch/roms/rom.bin".toList).1.files
      "/switch/roms/rom.bin".toList =
      some (Stub.stubCopyChunks (fun _ => 0) 0
        (Packer.chunkList "AB".toList)) :=
  c10_stub_ignores_short_writes (fun _ => 0)
    ⟨["/switch/roms".toList], [("romfs:/rom.bin".toList, "AB".toList)], []⟩
    "romfs:/rom.bin".toList "/switch/roms/rom.bin".toList "AB".toList
    (by decide) (by decide)

set_option maxRecDepth 8192 in
/-- C1 counterexample: a 160-character line containing no tab at all
violates the spec's two-field shape (`specTwoFieldParse` rejects it), yet
`sscanf` accepts it rather than failing: `%159[^\t]` takes the first 159
characters, the `\t` directive matches an empty run of whitespace
(C11 7.21.6.2p5), and `%575[^\n]` takes the rest — so the line is split
after 159 characters instead of being logged and skipped. -/
theorem c1_counterexample :
    Packer.specTwoFieldParse (List.replicate 160 'a') = none ∧
    Packer.parseManifestLine (List.replicate 160 'a') =
      some (List.replicate 159 'a', ['a']) := by
  constructor <;> decide

/-- C1 (amended): a line that `sscanf` rejects is a parse failure for that
line only — it is logged verbatim (post-trim) and skipped, and processing
continues with the next line from an unchanged state.  A line `sscanf`
accepts yields a category of at most 159 bytes (non-empty, tab-free) and a
filename of at most 575 bytes (non-empty); the line decomposes as category,
then a possibly-empty run of whitespace (the `\t` directive's skip, so the
separator need not be a single tab — or any tab at all, when the category
field is full), then the filename, then any overflow beyond 575 bytes,
which is silently truncated rather than rejected. -/
theorem c1_amended :
    (∀ (wo : Nat → Nat) (fs : FS) (raw : List Char)
        (rest : List (List Char)),
      Packer.trimCRLF raw ≠ [] →
      Packer.parseManifestLine (Packer.trimCRLF raw) = none →
      Packer.processLines wo fs (raw :: rest) =
        ((Packer.processLines wo fs rest).1,
          Packer.CopyEvent.badLine (Packer.trimCRLF raw) ::
            (Packer.processLines wo fs rest).2)) ∧
    (∀ (cs : List Char) (pf : List Char × List Char),
      Packer.parseManifestLine cs = some pf →
      pf.1 ≠ [] ∧ pf.1.length ≤ 159 ∧ (∀ c ∈ pf.1, c ≠ '\t') ∧
        pf.2 ≠ [] ∧ pf.2.length ≤ 575 ∧
        ∃ sep over, cs = pf.1 ++ sep ++ pf.2 ++ over ∧
          ∀ c ∈ sep, Packer.isCSpace c = true) := by
  constructor
  · exact processLines_badLine
  · intro cs pf h
    obtain ⟨a, b, c, d, e⟩ := parse_bounds cs pf h
    obtain ⟨sep, over, h1, h2⟩ := parse_some_shape cs pf h
    exact ⟨a, b, c, d, e, sep, over, h1, h2⟩

/-- C1 witness: the malformed line `no-tab` is logged and skipped while
the rest of the batch is processed from the same state; the well-formed
line `snes\tgame.sfc` parses into bounded fields. -/
theorem c1_witness :
    Packer.processLines (fun _ => 8192) (⟨[], [], []⟩ : FS)
        ["no-tab\n".toList] =
      ((Packer.processLines (fun _ => 8192) (⟨[], [], []⟩ : FS) []).1,
        Packer.CopyEvent.badLine (Packer.trimCRLF "no-tab\n".toList) ::
          (Packer.processLines (fun _ => 8192) (⟨[], [], []⟩ : FS) []).2) ∧
    ("snes".toList ≠ [] ∧ "snes".toList.length ≤ 159 ∧
      (∀ c ∈ "snes".toList, c ≠ '\t') ∧
      "game.sfc".toList ≠ [] ∧ "game.sfc".toList.length ≤ 575 ∧
      ∃ sep over, "snes\tgame.sfc".toList =
          "snes".toList ++ sep ++ "game.sfc".toList ++ over ∧
        ∀ c ∈ sep, Packer.isCSpace c = true) :=
  ⟨c1_amended.1 (fun _ => 8192) ⟨[], [], []⟩ "no-tab\n".toList []
      (by decide) (by decide),
    c1_amended.2 "snes\tgame.sfc".toList ("snes".toList, "game.sfc".toList)
      (by decide)⟩

/-- C2: a short write — `fwrite` storing fewer bytes than `fread`
delivered for some 8 KiB chunk — aborts the copy of that one entry with
the fatal `IoError` result; the destination file remains present holding a
strict prefix of the source (truncated, no rollback); the failure is
logged (`Copy failed`); and the batch never aborts: every non-empty
manifest line still produces exactly one outcome, whatever the oracle
does. -/
theorem c2_short_write (wo : Nat → Nat) (fs : FS) (raw : List Char)
    (plat fn content : List Char)
    (htrim : Packer.trimCRLF raw = plat ++ '\t' :: fn)
    (hp1 : plat ≠ []) (hp2 : plat.length ≤ 159) (hp3 : '\t' ∉ plat)
    (hf1 : fn ≠ []) (hf2 : fn.length ≤ 575) (hf3 : '\n' ∉ fn)
    (hf4 : ∀ c, fn.head? = some c → Packer.isCSpace c = false)
    (hsrc : lookF fs.files (Packer.srcPathOf fn) = some content)
    (hdenied : fs.denied = [])
    (hkeysR : ∀ p, p ∈ fs.keys → p.head? = some 'r')
    (hshort : (Packer.copyChunks wo 0 (Packer.chunkList content)).2 =
      false) :
    (Packer.lineStep wo fs raw).2 =
      [Packer.CopyEvent.copying (Packer.srcPathOf fn)
        (Packer.dstPathOf plat fn),
       Packer.CopyEvent.copyFailed
        (MAKERESULT Module_Libnx LibnxError_IoError)] ∧
    R_FAILED (MAKERESULT Module_Libnx LibnxError_IoError) ∧
    lookF (Packer.lineStep wo fs raw).1.files (Packer.dstPathOf plat fn) =
      some (Packer.copyChunks wo 0 (Packer.chunkList content)).1 ∧
    (∃ m, (Packer.copyChunks wo 0 (Packer.chunkList content)).1 =
      content.take m ∧ m < content.length) ∧
    (∀ (lines : List (List Char)) (fs2 : FS),
      Packer.countOutcomes (Packer.processLines wo fs2 lines).2 =
        Packer.countNonempty lines) := by
  obtain ⟨h1, h2⟩ := lineStep_entry_write wo fs raw plat fn content htrim
    hp1 hp2 hp3 hf1 hf2 hf3 hf4 hsrc hdenied hkeysR
  rw [hshort] at h1
  simp at h1
  obtain ⟨m, hm, _, hmlt⟩ :=
    copyChunks_take wo content.length content (le_refl _) 0
  refine ⟨h1, by decide, h2, ⟨m, hm, hmlt hshort⟩, ?_⟩
  intro lines fs2
  exact countOutcomes_processLines wo lines fs2

/-- C2 witness: a device accepting zero bytes per write truncates
`AB` to the empty file while the engine logs the failure and a later
batch still handles each of its lines. -/
theorem c2_witness :
    (Packer.lineStep (fun _ => 0)
        ⟨[], [("romfs:/a.sfc".toList, "AB".toList)], []⟩
        "snes\ta.sfc\n".toList).2 =
      [Packer.CopyEvent.copying (Packer.srcPathOf "a.sfc".toList)
        (Packer.dstPathOf "snes".toList "a.sfc".toList),
       Packer.CopyEvent.copyFailed
        (MAKERESULT Module_Libnx LibnxError_IoError)] ∧
    lookF (Packer.lineStep (fun _ => 0)
        ⟨[], [("romfs:/a.sfc".toList, "AB".toList)], []⟩
        "snes\ta.sfc\n".toList).1.files
      (Packer.dstPathOf "snes".toList "a.sfc".toList) =
      some (Packer.copyChunks (fun _ => 0) 0
        (Packer.chunkList "AB".toList)).1 ∧
    Packer.countOutcomes (Packer.processLines (fun _ => 0)
        (⟨[], [], []⟩ : FS) ["x\ty\n".toList, "bad\n".toList]).2 =
      Packer.countNonempty ["x\ty\n".toList, "bad\n".toList] := by
  have h := c2_short_write (fun _ => 0)
    ⟨[], [("romfs:/a.sfc".toList, "AB".toList)], []⟩
    "snes\ta.sfc\n".toList "snes".toList "a.sfc".toList "AB".toList
    (by decide) (by decide) (by decide) (by decide) (by decide)
    (by decide) (by decide) (by decide) (by decide) (by decide)
    (by decide) (by decide)
  exact ⟨h.1, h.2.2.1,
    h.2.2.2.2 ["x\ty\n".toList, "bad\n".toList] ⟨[], [], []⟩⟩

/-- C5: for a valid manifest entry the source path is the archive root
`romfs:/` concatenated with the filename and the destination path is the
output root `/roms/` plus the category plus `/` plus the filename; when
the source exists, the medium accepts full writes and the destination
tree is writable, the copy succeeds (`Done`) and the destination file's
bytes are identical to the source's. -/
theorem c5_paths_and_copy (wo : Nat → Nat) (fs : FS) (raw : List Char)
    (plat fn content : List Char)
    (htrim : Packer.trimCRLF raw = plat ++ '\t' :: fn)
    (hp1 : plat ≠ []) (hp2 : plat.length ≤ 159) (hp3 : '\t' ∉ plat)
    (hf1 : fn ≠ []) (hf2 : fn.length ≤ 575) (hf3 : '\n' ∉ fn)
    (hf4 : ∀ c, fn.head? = some c → Packer.isCSpace c = false)
    (hsrc : lookF fs.files (Packer.srcPathOf fn) = some content)
    (hdenied : fs.denied = [])
    (hkeysR : ∀ p, p ∈ fs.keys → p.head? = some 'r')
    (hwo : ∀ j, 8192 ≤ wo j) :
    Packer.srcPathOf fn = "romfs:/".toList ++ fn ∧
    Packer.dstPathOf plat fn =
      "/roms/".toList ++ plat ++ "/".toList ++ fn ∧
    (Packer.lineStep wo fs raw).2 =
      [Packer.CopyEvent.copying (Packer.srcPathOf fn)
        (Packer.dstPathOf plat fn), Packer.CopyEvent.done] ∧
    lookF (Packer.lineStep wo fs raw).1.files (Packer.dstPathOf plat fn) =
      some content := by
  obtain ⟨h1, h2⟩ := lineStep_entry_write wo fs raw plat fn content htrim
    hp1 hp2 hp3 hf1 hf2 hf3 hf4 hsrc hdenied hkeysR
  have hfull := copyChunks_full wo hwo content.length content (le_refl _) 0
  rw [hfull] at h1 h2
  simp only [if_true] at h1
  exact ⟨rfl, rfl, h1, h2⟩

/-- C5 witness: the spec's scenario — manifest line
`snes\tsuper_game.sfc`, source present under the archive root, output
root `/roms` — ends with `/roms/snes/super_game.sfc` holding exactly the
source bytes. -/
theorem c5_witness :
    Packer.srcPathOf "super_game.sfc".toList =
      "romfs:/".toList ++ "super_game.sfc".toList ∧
    Packer.dstPathOf "snes".toList "super_game.sfc".toList =
      "/roms/".toList ++ "snes".toList ++ "/".toList ++
        "super_game.sfc".toList ∧
    (Packer.lineStep (fun _ => 8192)
        ⟨[], [("romfs:/super_game.sfc".toList, "ROMDATA".toList)], []⟩
        "snes\tsuper_game.sfc\n".toList).2 =
      [Packer.CopyEvent.copying (Packer.srcPathOf "super_game.sfc".toList)
        (Packer.dstPathOf "snes".toList "super_game.sfc".toList),
       Packer.CopyEvent.done] ∧
    lookF (Packer.lineStep (fun _ => 8192)
        ⟨[], [("romfs:/super_game.sfc".toList, "ROMDATA".toList)], []⟩
        "snes\tsuper_game.sfc\n".toList).1.files
      (Packer.dstPathOf "snes".toList "super_game.sfc".toList) =
      some "ROMDATA".toList :=
  c5_paths_and_copy (fun _ => 8192)
    ⟨[], [("romfs:/super_game.sfc".toList, "ROMDATA".toList)], []⟩
    "snes\tsuper_game.sfc\n".toList "snes".toList "super_game.sfc".toList
    "ROMDATA".toList (by decide) (by decide) (by decide) (by decide)
    (by decide) (by decide) (by decide) (by decide) (by decide)
    (by decide) (by decide) (fun j => le_refl 8192)

/-- C8: when the destination directory cannot be created for a reason
other than already-exists (here: a denied path — read-only medium,
permissions, ...), `mkpath` reports the failure (`-1`), the entry's copy
fails with `IoError` and is logged (`Copy failed`), no file is written,
and the engine proceeds: the batch never aborts — every non-empty line
still produces exactly one outcome. -/
theorem c8_dir_create_failure (wo : Nat → Nat) (fs : FS) (raw : List Char)
    (plat fn content : List Char)
    (htrim : Packer.trimCRLF raw = plat ++ '\t' :: fn)
    (hp1 : plat ≠ []) (hp2 : plat.length ≤ 159) (hp3 : '\t' ∉ plat)
    (hf1 : fn ≠ []) (hf2 : fn.length ≤ 575) (hf3 : '\n' ∉ fn)
    (hf4 : ∀ c, fn.head? = some c → Packer.isCSpace c = false)
    (hfn : '/' ∉ fn)
    (hsrc : lookF fs.files (Packer.srcPathOf fn) = some content)
    (hden : ("/roms/".toList ++ plat) ∈ fs.denied)
    (hnd : ("/roms/".toList ++ plat) ∉ fs.dirs)
    (hk : ("/roms/".toList ++ plat) ∉ fs.keys) :
    (mkpath fs ("/roms/".toList ++ plat)).2 = false ∧
    (Packer.lineStep wo fs raw).2 =
      [Packer.CopyEvent.copying (Packer.srcPathOf fn)
        (Packer.dstPathOf plat fn),
       Packer.CopyEvent.copyFailed
        (MAKERESULT Module_Libnx LibnxError_IoError)] ∧
    R_FAILED (MAKERESULT Module_Libnx LibnxError_IoError) ∧
    (Packer.lineStep wo fs raw).1.files = fs.files ∧
    (∀ (lines : List (List Char)) (fs2 : FS),
      Packer.countOutcomes (Packer.processLines wo fs2 lines).2 =
        Packer.countNonempty lines) := by
  obtain ⟨h1, h2, h3⟩ := lineStep_entry_denied wo fs raw plat fn content
    htrim hp1 hp2 hp3 hf1 hf2 hf3 hf4 hfn hsrc hden hnd hk
  exact ⟨h3, h1, by decide, h2,
    fun lines fs2 => countOutcomes_processLines wo lines fs2⟩

/-- C8 witness: with `/roms/snes` denied (and not present), the entry
`snes\ta.sfc` fails with `IoError`, writes nothing, and the engine keeps
counting one outcome per non-empty line. -/
theorem c8_witness :
    (mkpath ⟨[], [("romfs:/a.sfc".toList, "AB".toList)],
        ["/roms/snes".toList]⟩
      ("/roms/".toList ++ "snes".toList)).2 = false ∧
    (Packer.lineStep (fun _ => 8192)
        ⟨[], [("romfs:/a.sfc".toList, "AB".toList)],
          ["/roms/snes".toList]⟩ "snes\ta.sfc\n".toList).2 =
      [Packer.CopyEvent.copying (Packer.srcPathOf "a.sfc".toList)
        (Packer.dstPathOf "snes".toList "a.sfc".toList),
       Packer.CopyEvent.copyFailed
        (MAKERESULT Module_Libnx LibnxError_IoError)] ∧
    (Packer.lineStep (fun _ => 8192)
        ⟨[], [("romfs:/a.sfc".toList, "AB".toList)],
          ["/roms/snes".toList]⟩ "snes\ta.sfc\n".toList).1.files =
      (⟨[], [("romfs:/a.sfc".toList, "AB".toList)],
        ["/roms/snes".toList]⟩ : FS).files ∧
    Packer.countOutcomes (Packer.processLines (fun _ => 8192)
        (⟨[], [], []⟩ : FS) ["a\tb\n".toList, "\n".toList]).2 =
      Packer.countNonempty ["a\tb\n".toList, "\n".toList] := by
  have h := c8_dir_create_failure (fun _ => 8192)
    ⟨[], [("romfs:/a.sfc".toList, "AB".toList)], ["/roms/snes".toList]⟩
    "snes\ta.sfc\n".toList "snes".toList "a.sfc".toList "AB".toList
    (by decide) (by decide) (by decide) (by decide) (by decide)
    (by decide) (by decide) (by decide) (by decide) (by decide)
    (by decide) (by decide) (by decide)
  exact ⟨h.1, h.2.1, h.2.2.2.1,
    h.2.2.2.2 ["a\tb\n".toList, "\n".toList] ⟨[], [], []⟩⟩

/-- C9: the forwarder reads the target-path record through a 512-byte
buffer (at most 511 bytes of payload) and the argv record through a
768-byte buffer (at most 767 bytes), and each record is the stored bytes
with the trailing run of whitespace — spaces, tabs, CR, LF, exactly the
set `isTrimWs` tests — removed before use. -/
theorem c9_bounded_reads (fs : FS) :
    (Forwarder.read_text_file fs Forwarder.NRO_FILE 512).length ≤ 511 ∧
    (Forwarder.read_text_file fs Forwarder.ARG_FILE 768).length ≤ 767 ∧
    (∀ content, lookF fs.files Forwarder.NRO_FILE = some content →
      Forwarder.read_text_file fs Forwarder.NRO_FILE 512 =
        Forwarder.rstripWs (content.take 511)) ∧
    (∀ content, lookF fs.files Forwarder.ARG_FILE = some content →
      Forwarder.read_text_file fs Forwarder.ARG_FILE 768 =
        Forwarder.rstripWs (content.take 767)) ∧
    (∀ cs : List Char,
      cs = Forwarder.rstripWs cs ++
          (cs.reverse.takeWhile Forwarder.isTrimWs).reverse ∧
      (∀ c ∈ (cs.reverse.takeWhile Forwarder.isTrimWs).reverse,
        Forwarder.isTrimWs c = true) ∧
      (∀ c, (Forwarder.rstripWs cs).getLast? = some c →
        Forwarder.isTrimWs c = false)) := by
  refine ⟨read_text_file_length fs _ 512, read_text_file_length fs _ 768,
    ?_, ?_, ?_⟩
  · intro content h
    exact read_text_file_some fs _ 512 content h
  · intro content h
    exact read_text_file_some fs _ 768 content h
  · intro cs
    obtain ⟨h1, h2⟩ := rstripWs_split cs
    exact ⟨h1, h2, rstripWs_last cs⟩

/-- C9 witness: a target record of `path.nro` followed by a space, tab,
CR and LF trims to the bare path within the bounds. -/
theorem c9_witness :
    (Forwarder.read_text_file
        ⟨[], [(Forwarder.NRO_FILE, "path.nro \t\r\n".toList)], []⟩
        Forwarder.NRO_FILE 512).length ≤ 511 ∧
    Forwarder.read_text_file
        ⟨[], [(Forwarder.NRO_FILE, "path.nro \t\r\n".toList)], []⟩
        Forwarder.NRO_FILE 512 =
      Forwarder.rstripWs ("path.nro \t\r\n".toList.take 511) ∧
    "ab \t".toList = Forwarder.rstripWs "ab \t".toList ++
      ("ab \t".toList.reverse.takeWhile Forwarder.isTrimWs).reverse := by
  have h := c9_bounded_reads
    ⟨[], [(Forwarder.NRO_FILE, "path.nro \t\r\n".toList)], []⟩
  exact ⟨h.1, h.2.2.1 "path.nro \t\r\n".toList (by decide),
    (h.2.2.2.2 "ab \t".toList).1⟩
